import Mathlib

/-
Shallow embedding of the viber Graph-Vector-Retrieval (GVR) subsystem.

The definitions below are direct translations of the TypeScript sources:
  * CKGService            (ckg-service: graph store, indexing, dependency queries)
  * TypeScriptParser      (ckg-service parsers/typescript.parser.ts)
  * InMemoryVectorStore   (vector-service/src/services/vector.store.ts)
  * ChunkerService        (vector-service/src/services/chunker.service.ts)
  * MockEmbeddingAdapter  (vector-service/src/services/embedding.adapter.ts)
  * GVRService            (orchestrator/src/services/gvr.service.ts)

JavaScript numbers are modelled as exact rationals, JS `Map`s as
insertion-ordered association lists, thrown exceptions as `Except`,
and the nondeterministic `uuidv4()` id supply as an explicit
function parameter.
-/

set_option maxRecDepth 4000

/-! ## JS `Map` as an insertion-ordered association list -/

/-- Lookup in a JS `Map`: first entry with the given key, if any. -/
def mapGet {α : Type} (m : List (String × α)) (k : String) : Option α :=
  (m.find? (fun kv => kv.1 == k)).map (fun kv => kv.2)

/-- JS `Map.set`: replace the value in place if the key exists, else append. -/
def mapSet {α : Type} : List (String × α) → String → α → List (String × α)
  | [], k, v => [(k, v)]
  | kv :: rest, k, v => if kv.1 == k then (k, v) :: rest else kv :: mapSet rest k v

/-- JS `Map.delete`: remove the entry with the given key. -/
def mapDelete {α : Type} (m : List (String × α)) (k : String) : List (String × α) :=
  m.filter (fun kv => kv.1 != k)

/-- JS `Map.values()` in insertion order. -/
def mapValues {α : Type} (m : List (String × α)) : List α :=
  m.map (fun kv => kv.2)

/-! ## Data model (ckg-service/src/types/index.ts)

Optional fields (`signature`, `docstring`, `metadata`) and the `language`
tag are omitted: no code path in the embedded services reads them. -/

/-- A node of the code knowledge graph. -/
structure CKGNode where
  id : String
  type : String
  name : String
  filePath : String
  startLine : Nat
  endLine : Nat
deriving DecidableEq, Repr

/-- An edge of the code knowledge graph. -/
structure CKGEdge where
  id : String
  type : String
  sourceId : String
  targetId : String
deriving DecidableEq, Repr

/-- The graph: a `Map` of nodes keyed by id plus an edge array. -/
structure CKGraph where
  nodes : List (String × CKGNode)
  edges : List CKGEdge
deriving DecidableEq, Repr

/-- One entry of a dependency query answer. -/
structure DependencyResult where
  file : String
  depth : Nat
  relationship : String
deriving DecidableEq, Repr

/-- Import information produced by the parser; only `source` is read
by `CKGService.linkImports`. -/
structure ImportInfo where
  source : String
deriving DecidableEq, Repr

/-- Result of parsing one file (`FileAnalysis` in the types module);
produced by `TypeScriptParser.parseFile` — embedded below as
`parseFileModel` — and consumed by `CKGService.indexFile`, whose
translation takes it as an explicit input. -/
structure FileAnalysis where
  filePath : String
  nodes : List CKGNode
  edges : List CKGEdge
  imports : List ImportInfo
  checksum : String
deriving DecidableEq, Repr

/-- Mutable state of `CKGService`: the graph plus the checksum map. -/
structure CKGState where
  graph : CKGraph
  fileChecksums : List (String × String)
deriving DecidableEq, Repr

/-- Return value of `CKGService.indexFile`. -/
structure IndexResult where
  updated : Bool
  nodesCreated : Nat
  edgesCreated : Nat
deriving DecidableEq, Repr

/-! ## String primitives

Structural (kernel-computable) implementations of the JS string
operations the sources use: `split`, `join`, `toLowerCase`, `trim`,
`startsWith`. For the ASCII file paths and sources involved they agree
with the originals. -/

/-- Accumulating worker for `splitOnChar`. -/
def splitOnCharGo (sep : Char) : List Char → List Char → List String
  | [], acc => [String.mk acc.reverse]
  | c :: rest, acc =>
    if c == sep then String.mk acc.reverse :: splitOnCharGo sep rest []
    else splitOnCharGo sep rest (c :: acc)

/-- JS `s.split(sep)` for a one-character separator. -/
def splitOnChar (sep : Char) (s : String) : List String :=
  splitOnCharGo sep s.data []

/-- JS `parts.join(sep)`. -/
def joinWith (sep : String) : List String → String
  | [] => ""
  | [x] => x
  | x :: y :: rest => x ++ sep ++ joinWith sep (y :: rest)

/-- JS `s.toLowerCase()` (ASCII range). -/
def jsToLower (s : String) : String :=
  String.mk (s.data.map Char.toLower)

/-- JS `s.trim()`: strip leading and trailing whitespace. -/
def jsTrim (s : String) : String :=
  String.mk (((s.data.dropWhile Char.isWhitespace).reverse.dropWhile Char.isWhitespace).reverse)

/-- JS `s.startsWith(p)`. -/
def jsStartsWith (p s : String) : Bool :=
  p.data.isPrefixOf s.data

/-! ## Node `path` module (dirname / join), as used by `linkImports` -/

/-- Split a path on `/`. -/
def splitPath (p : String) : List String :=
  splitOnChar '/' p

/-- Normalize path segments the way `path.join` does: drop empty and `.`
segments, let `..` cancel a preceding real segment; `allowAboveRoot` is
false for absolute paths, where a `..` at the root is dropped. -/
def normalizeSegs (allowAboveRoot : Bool) : List String → List String → List String
  | acc, [] => acc.reverse
  | acc, s :: rest =>
    if s = "" ∨ s = "." then normalizeSegs allowAboveRoot acc rest
    else if s = ".." then
      match acc with
      | [] =>
        if allowAboveRoot then normalizeSegs allowAboveRoot [".."] rest
        else normalizeSegs allowAboveRoot [] rest
      | top :: accTail =>
        if top = ".." then normalizeSegs allowAboveRoot (s :: top :: accTail) rest
        else normalizeSegs allowAboveRoot accTail rest
    else normalizeSegs allowAboveRoot (s :: acc) rest

/-- Reassemble normalized segments; an empty result denotes `.`. -/
def joinSegs (segs : List String) : String :=
  if segs.isEmpty then "." else joinWith "/" segs

/-- Model of `path.join(a, b)`: concatenate with `/`, then normalize,
keeping the leading `/` of an absolute result as Node does. -/
def pathJoin (a b : String) : String :=
  let joined := a ++ "/" ++ b
  let isAbsolute := jsStartsWith "/" joined
  let segs := normalizeSegs (!isAbsolute) [] (splitPath joined)
  if isAbsolute then "/" ++ joinWith "/" segs else joinSegs segs

/-- Model of `path.basename(p)`: the final path segment. -/
def pathBasename (p : String) : String :=
  ((splitPath p).getLast?).getD p

/-- Model of `path.dirname(p)`: everything before the final `/`, or `.`. -/
def pathDirname (p : String) : String :=
  let segs := splitPath p
  if segs.length ≤ 1 then "." else joinWith "/" segs.dropLast

/-! ## TypeScriptParser (typescript.parser.ts)

The parser walks a `ts.SourceFile` produced by the external TypeScript
compiler, so the embedding takes the parse-relevant syntax as input: the
declarations `visitNode` inspects, in visit (preorder) order — import
declarations with a string-literal specifier, classes with their
heritage clauses and methods, functions, interfaces and type aliases.
The external primitives are explicit parameters: `md5Hash8` for the
8-hex-character md5 slice inside `generateNodeId`, `uuid` for the
`uuidv4()` edge ids (supplied per edge already created, as for the
chunker), and `sha256` for the content checksum. Exports, signatures and
docstrings are not tracked: they only populate fields the embedded
services never read. -/

/-- One declaration `TypeScriptParser.visitNode` reacts to. Methods are
`(name, startLine, endLine)` triples. -/
inductive TsDecl where
  | importDecl (source : String) (specifiers : List String) (startLine endLine : Nat)
  | classDecl (name : String) (extendsNames implementsNames : List String)
      (methods : List (String × Nat × Nat)) (startLine endLine : Nat)
  | functionDecl (name : String) (startLine endLine : Nat)
  | interfaceDecl (name : String) (startLine endLine : Nat)
  | typeAliasDecl (name : String) (startLine endLine : Nat)
deriving DecidableEq, Repr

/-- Translation of `TypeScriptParser.generateNodeId`: deterministic id
from `(filePath, type, name)` via the abstract md5 slice. -/
def generateNodeId (md5Hash8 : String → String) (filePath tp name : String) : String :=
  tp ++ "_" ++ md5Hash8 (filePath ++ ":" ++ tp ++ ":" ++ name)

/-- Accumulator of the AST walk: the node, edge and import lists
`visitNode` pushes into. -/
structure ParseAcc where
  nodes : List CKGNode
  edges : List CKGEdge
  imports : List ImportInfo
deriving DecidableEq, Repr

/-- Translation of one `TypeScriptParser.visitNode` step for a single
declaration. -/
def visitDecl (md5Hash8 : String → String) (uuid : Nat → String)
    (filePath fileNodeId : String) (acc : ParseAcc) : TsDecl → ParseAcc
  | TsDecl.importDecl source _specifiers startLine endLine =>
    let importNode : CKGNode :=
      { id := generateNodeId md5Hash8 filePath "import" source, type := "import",
        name := source, filePath := filePath, startLine := startLine, endLine := endLine }
    { nodes := acc.nodes ++ [importNode],
      edges := acc.edges ++
          [CKGEdge.mk (uuid acc.edges.length) "imports" fileNodeId importNode.id],
      imports := acc.imports ++ [ImportInfo.mk source] }
  | TsDecl.classDecl name extendsNames implementsNames methods startLine endLine =>
    let classNode : CKGNode :=
      { id := generateNodeId md5Hash8 filePath "class" name, type := "class",
        name := name, filePath := filePath, startLine := startLine, endLine := endLine }
    let acc1 : ParseAcc :=
      { acc with
        nodes := acc.nodes ++ [classNode],
        edges := acc.edges ++
          [CKGEdge.mk (uuid acc.edges.length) "contains" fileNodeId classNode.id] }
    let acc2 : ParseAcc := extendsNames.foldl
      (fun a en =>
        { a with
          edges := a.edges ++
            [CKGEdge.mk (uuid a.edges.length) "extends" classNode.id
              (generateNodeId md5Hash8 filePath "class" en)] }) acc1
    let acc3 : ParseAcc := implementsNames.foldl
      (fun a im =>
        { a with
          edges := a.edges ++
            [CKGEdge.mk (uuid a.edges.length) "implements" classNode.id
              (generateNodeId md5Hash8 filePath "interface" im)] }) acc2
    methods.foldl
      (fun a m =>
        let methodNode : CKGNode :=
          { id := generateNodeId md5Hash8 filePath "method" (name ++ "." ++ m.1),
            type := "method", name := m.1, filePath := filePath,
            startLine := m.2.1, endLine := m.2.2 }
        { a with
          nodes := a.nodes ++ [methodNode],
          edges := a.edges ++
            [CKGEdge.mk (uuid a.edges.length) "contains" classNode.id methodNode.id] }) acc3
  | TsDecl.functionDecl name startLine endLine =>
    let funcNode : CKGNode :=
      { id := generateNodeId md5Hash8 filePath "function" name, type := "function",
        name := name, filePath := filePath, startLine := startLine, endLine := endLine }
    { acc with
      nodes := acc.nodes ++ [funcNode],
      edges := acc.edges ++
        [CKGEdge.mk (uuid acc.edges.length) "contains" fileNodeId funcNode.id] }
  | TsDecl.interfaceDecl name startLine endLine =>
    let interfaceNode : CKGNode :=
      { id := generateNodeId md5Hash8 filePath "interface" name, type := "interface",
        name := name, filePath := filePath, startLine := startLine, endLine := endLine }
    { acc with
      nodes := acc.nodes ++ [interfaceNode],
      edges := acc.edges ++
        [CKGEdge.mk (uuid acc.edges.length) "contains" fileNodeId interfaceNode.id] }
  | TsDecl.typeAliasDecl name startLine endLine =>
    let typeNode : CKGNode :=
      { id := generateNodeId md5Hash8 filePath "type" name, type := "type",
        name := name, filePath := filePath, startLine := startLine, endLine := endLine }
    { acc with
      nodes := acc.nodes ++ [typeNode],
      edges := acc.edges ++
        [CKGEdge.mk (uuid acc.edges.length) "contains" fileNodeId typeNode.id] }

/-- Translation of `TypeScriptParser.parseFile`: the file node first
(`endLine` is the line count of the content), then the AST walk, then
the checksum of the raw content. -/
def parseFileModel (md5Hash8 : String → String) (uuid : Nat → String)
    (sha256 : String → String) (filePath content : String) (decls : List TsDecl) :
    FileAnalysis :=
  let fileNode : CKGNode :=
    { id := generateNodeId md5Hash8 filePath "file" (pathBasename filePath),
      type := "file", name := pathBasename filePath, filePath := filePath,
      startLine := 1, endLine := (splitOnChar (Char.ofNat 10) content).length }
  let acc := decls.foldl (visitDecl md5Hash8 uuid filePath fileNode.id) ⟨[fileNode], [], []⟩
  { filePath := filePath, nodes := acc.nodes, edges := acc.edges,
    imports := acc.imports, checksum := sha256 content }

/-! ## CKGService (graph store) -/

/-- Find the `file` node registered for a path (first match in map
iteration order). -/
def findFileNode (g : CKGraph) (filePath : String) : Option CKGNode :=
  (mapValues g.nodes).find? (fun n => n.type == "file" && n.filePath == filePath)

/-- Remove all nodes of a file and every edge referencing one of them. -/
def removeFileFromGraph (g : CKGraph) (filePath : String) : CKGraph :=
  let nodeIdsToRemove := (g.nodes.filter (fun kv => kv.2.filePath == filePath)).map (fun kv => kv.1)
  { nodes := nodeIdsToRemove.foldl (fun m k => mapDelete m k) g.nodes,
    edges := g.edges.filter
      (fun e => !(nodeIdsToRemove.contains e.sourceId) && !(nodeIdsToRemove.contains e.targetId)) }

/-- Candidate target paths for one relative import specifier, in the
source's fixed priority order. -/
def possiblePaths (baseDir source : String) : List String :=
  [ pathJoin baseDir (source ++ ".ts"),
    pathJoin baseDir (source ++ ".tsx"),
    pathJoin baseDir (source ++ "/index.ts"),
    pathJoin baseDir (source ++ "/index.tsx"),
    pathJoin baseDir source ]

/-- The candidate loop of `linkImports`: the first candidate owning a file
node wins; the loop then breaks, emitting a `depends_on` edge if the
importing file itself has a file node. -/
def tryCandidates (g : CKGraph) (currentFilePath : String) : List String → List CKGEdge
  | [] => []
  | c :: rest =>
    match findFileNode g c with
    | some fileNode =>
      match findFileNode g currentFilePath with
      | some currentFileNode =>
        [{ id := "dep_" ++ currentFileNode.id ++ "_" ++ fileNode.id,
           type := "depends_on",
           sourceId := currentFileNode.id,
           targetId := fileNode.id }]
      | none => []
    | none => tryCandidates g currentFilePath rest

/-- Edges contributed by resolving one import of the analysed file. -/
def linkOneImport (g : CKGraph) (a : FileAnalysis) (imp : ImportInfo) : List CKGEdge :=
  if jsStartsWith "." imp.source then
    tryCandidates g a.filePath (possiblePaths (pathDirname a.filePath) imp.source)
  else []

/-- Translation of `CKGService.linkImports`: append one resolved `depends_on` edge per
resolvable relative import; unresolved imports contribute nothing. -/
def linkImports (g : CKGraph) (a : FileAnalysis) : CKGraph :=
  { g with edges := g.edges ++ (a.imports.foldl (fun acc imp => acc ++ linkOneImport g a imp) []) }

/-- Translation of `CKGService.indexFile`, with the parse result supplied as input.
If the stored checksum matches, nothing changes; otherwise the file's
nodes/edges are removed, the fresh ones inserted, imports linked and the
checksum stored. -/
def indexFile (s : CKGState) (analysis : FileAnalysis) : CKGState × IndexResult :=
  if mapGet s.fileChecksums analysis.filePath = some analysis.checksum then
    (s, ⟨false, 0, 0⟩)
  else
    let g1 := removeFileFromGraph s.graph analysis.filePath
    let g2 : CKGraph := { g1 with nodes := analysis.nodes.foldl (fun m n => mapSet m n.id n) g1.nodes }
    let g3 : CKGraph := { g2 with edges := g2.edges ++ analysis.edges }
    let g4 := linkImports g3 analysis
    ({ graph := g4,
       fileChecksums := mapSet s.fileChecksums analysis.filePath analysis.checksum },
     ⟨true, analysis.nodes.length, analysis.edges.length⟩)

/-- Traversal state shared by the dependency walks: the visited node-id
set and the accumulated results, mutated across sibling edges exactly as
the closure variables are in the source. -/
structure TravState where
  visited : List String
  results : List DependencyResult
deriving DecidableEq, Repr

/-- The recursive `traverse` closure of `CKGService.getDependents`.
Recursion is bounded by explicit fuel; `fuel = depthBound + 2` is enough
because `currentDepth` grows by one per level and the walk stops as soon
as `currentDepth > depthBound`. -/
def traverseDependents (g : CKGraph) (depthBound : Nat) :
    Nat → String → Nat → TravState → TravState
  | 0, _, _, st => st
  | Nat.succ fuel, nodeId, currentDepth, st =>
    if currentDepth > depthBound ∨ st.visited.contains nodeId then st
    else
      let st1 : TravState := { st with visited := nodeId :: st.visited }
      g.edges.foldl
        (fun st2 edge =>
          if edge.targetId == nodeId && edge.type == "depends_on" then
            match mapGet g.nodes edge.sourceId with
            | some sourceNode =>
              if sourceNode.type == "file" then
                let st3 : TravState :=
                  { st2 with results := st2.results ++
                      [{ file := sourceNode.filePath, depth := currentDepth,
                         relationship := edge.type }] }
                traverseDependents g depthBound fuel edge.sourceId (currentDepth + 1) st3
              else st2
            | none => st2
          else st2)
        st1

/-- Translation of `CKGService.getDependents`: files that (transitively) depend on the
given file, walking `depends_on` edges backwards. -/
def getDependents (g : CKGraph) (filePath : String) (depth : Nat) : List DependencyResult :=
  match findFileNode g filePath with
  | none => []
  | some fileNode => (traverseDependents g depth (depth + 2) fileNode.id 1 ⟨[], []⟩).results

/-- The recursive `traverse` closure of `CKGService.getDependencies`
(forward direction: edges whose source is the current node). -/
def traverseDependencies (g : CKGraph) (depthBound : Nat) :
    Nat → String → Nat → TravState → TravState
  | 0, _, _, st => st
  | Nat.succ fuel, nodeId, currentDepth, st =>
    if currentDepth > depthBound ∨ st.visited.contains nodeId then st
    else
      let st1 : TravState := { st with visited := nodeId :: st.visited }
      g.edges.foldl
        (fun st2 edge =>
          if edge.sourceId == nodeId && edge.type == "depends_on" then
            match mapGet g.nodes edge.targetId with
            | some targetNode =>
              if targetNode.type == "file" then
                let st3 : TravState :=
                  { st2 with results := st2.results ++
                      [{ file := targetNode.filePath, depth := currentDepth,
                         relationship := edge.type }] }
                traverseDependencies g depthBound fuel edge.targetId (currentDepth + 1) st3
              else st2
            | none => st2
          else st2)
        st1

/-- Translation of `CKGService.getDependencies`: files the given file (transitively)
depends on. -/
def getDependencies (g : CKGraph) (filePath : String) (depth : Nat) : List DependencyResult :=
  match findFileNode g filePath with
  | none => []
  | some fileNode => (traverseDependencies g depth (depth + 2) fileNode.id 1 ⟨[], []⟩).results

/-! ## InMemoryVectorStore (vector-service/src/services/vector.store.ts) -/

/-- A stored vector document. The open `metadata` bag is omitted: the
store never reads it. Scores and embeddings are exact rationals. -/
structure VectorDocument where
  id : String
  chunkId : String
  embedding : List ℚ
  content : String
  filePath : String
  startLine : Nat
  endLine : Nat
deriving DecidableEq, Repr

/-- One search hit: the document plus its similarity score. -/
structure SearchResult where
  id : String
  score : ℚ
  document : VectorDocument
deriving DecidableEq, Repr

/-- The in-memory store: documents keyed by id plus the filePath index. -/
structure InMemoryVectorStore where
  documents : List (String × VectorDocument)
  fileIndex : List (String × List String)
deriving DecidableEq, Repr

/-- JS `Set.add` on an insertion-ordered list. -/
def addUnique (s : List String) (x : String) : List String :=
  if s.contains x then s else s ++ [x]

/-- Translation of `InMemoryVectorStore.insert`: upsert by id and maintain the
filePath → documentIds index. -/
def storeInsert (store : InMemoryVectorStore) (docs : List VectorDocument) : InMemoryVectorStore :=
  docs.foldl
    (fun st doc =>
      { documents := mapSet st.documents doc.id doc,
        fileIndex := mapSet st.fileIndex doc.filePath
          (addUnique ((mapGet st.fileIndex doc.filePath).getD []) doc.id) })
    store

/-- Translation of `InMemoryVectorStore.deleteByFile`: drop every document indexed under
the path, then drop the index entry. -/
def storeDeleteByFile (store : InMemoryVectorStore) (filePath : String) : InMemoryVectorStore :=
  match mapGet store.fileIndex filePath with
  | none => store
  | some docIds =>
    { documents := docIds.foldl (fun m k => mapDelete m k) store.documents,
      fileIndex := mapDelete store.fileIndex filePath }

/-- Translation of `cosineSimilarity`, which throws on a length mismatch. The code's
`Math.sqrt` is kept abstract as `sqrtFn`; no claim depends on the
numeric value of a similarity, only on the error/termination behaviour. -/
def cosineSimilarity (sqrtFn : ℚ → ℚ) (a b : List ℚ) : Except String ℚ :=
  if a.length ≠ b.length then Except.error "Vectors must have same length"
  else
    let dotProduct := (List.zipWith (fun x y => x * y) a b).sum
    let normA := (a.map (fun x => x * x)).sum
    let normB := (b.map (fun x => x * x)).sum
    let denominator := sqrtFn normA * sqrtFn normB
    if denominator = 0 then Except.ok 0 else Except.ok (dotProduct / denominator)

/-- The optional search filters; only `filePath` is consulted. -/
structure SearchFilters where
  filePath : Option String
deriving DecidableEq, Repr

/-- The filter guard at the top of the search loop. -/
def passesFilters (filters : Option SearchFilters) (doc : VectorDocument) : Bool :=
  match filters with
  | none => true
  | some f =>
    match f.filePath with
    | none => true
    | some p => doc.filePath == p

/-- Stable insertion step for descending sort by a rational key,
matching the stable JS `Array.prototype.sort` comparator: the inserted
element precedes later elements of equal key. -/
def insertDescBy {α : Type} (key : α → ℚ) (x : α) : List α → List α
  | [] => [x]
  | y :: ys => if key y ≤ key x then x :: y :: ys else y :: insertDescBy key x ys

/-- Stable descending sort by a rational key. -/
def sortDescBy {α : Type} (key : α → ℚ) : List α → List α
  | [] => []
  | x :: xs => insertDescBy key x (sortDescBy key xs)

/-- Translation of `InMemoryVectorStore.search`: linear scan scoring every stored
document (the first dimension mismatch aborts the call with the thrown
error), then sort descending and truncate to `topK`. The scan performs
no mutation, so the model returns no updated store. -/
def storeSearch (sqrtFn : ℚ → ℚ) (store : InMemoryVectorStore) (embedding : List ℚ)
    (topK : Nat) (filters : Option SearchFilters) : Except String (List SearchResult) := do
  let results ← (mapValues store.documents).foldlM
    (fun acc doc =>
      if passesFilters filters doc then do
        let score ← cosineSimilarity sqrtFn embedding doc.embedding
        pure (acc ++ [{ id := doc.id, score := score, document := doc }])
      else pure acc)
    ([] : List SearchResult)
  pure ((sortDescBy (fun r => r.score) results).take topK)

/-! ## ChunkerService (vector-service/src/services/chunker.service.ts) -/

/-- The chunking policy read from configuration. -/
structure ChunkingPolicy where
  maxChunkSize : Nat
  chunkOverlap : Nat
  minChunkSize : Nat
deriving DecidableEq, Repr

/-- A produced chunk. -/
structure Chunk where
  id : String
  content : String
  filePath : String
  startLine : Nat
  endLine : Nat
  checksum : String
deriving DecidableEq, Repr

/-- Model of `Math.ceil(text.length / 4)`: the rough token estimate. -/
def estimateTokens (text : String) : Nat :=
  (text.length + 3) / 4

/-- Backwards accumulation of `calculateOverlapLines`: keep suffix lines
while their token estimate stays within the target. -/
def overlapGo (target : Nat) : List String → Nat → List String → List String
  | [], _, acc => acc
  | l :: rest, tokens, acc =>
    let lineTokens := (l.length + 3) / 4
    if tokens + lineTokens > target then acc
    else overlapGo target rest (tokens + lineTokens) (l :: acc)

/-- Translation of `ChunkerService.calculateOverlapLines`. -/
def calculateOverlapLines (lines : List String) (targetTokens : Nat) : List String :=
  overlapGo targetTokens lines.reverse 0 []

/-- Translation of `ChunkerService.createChunk`. The `uuidv4()` call is the only
nondeterminism in the chunker; it is modelled by the explicit id supply
`ids` indexed by the number of chunks already emitted, and the sha256
checksum by the abstract content hash `hash`. -/
def createChunk (hash : String → String) (idValue filePath content : String)
    (startLine endLine : Nat) : Chunk :=
  { id := idValue, content := content, filePath := filePath,
    startLine := startLine, endLine := endLine, checksum := hash content }

/-- The line loop of `chunkContent`: arguments after `filePath` are the
remaining lines, the current 0-based line index, the emitted chunks, the
accumulating chunk lines, the running token estimate and the 1-based
start line of the accumulating chunk. -/
def chunkLoop (policy : ChunkingPolicy) (hash : String → String) (ids : Nat → String)
    (filePath : String) :
    List String → Nat → List Chunk → List String → Nat → Nat → List Chunk
  | [], _, chunks, currentChunk, _, startLine =>
    if currentChunk ≠ [] then
      let contentStr := joinWith "\n" currentChunk
      if estimateTokens contentStr ≥ policy.minChunkSize then
        chunks ++ [createChunk hash (ids chunks.length) filePath contentStr
          startLine (startLine + currentChunk.length - 1)]
      else chunks
    else chunks
  | line :: rest, i, chunks, currentChunk, currentTokens, startLine =>
    let lineTokens := estimateTokens line
    if currentTokens + lineTokens > policy.maxChunkSize ∧ currentChunk ≠ [] then
      let contentStr := joinWith "\n" currentChunk
      let chunks1 :=
        if estimateTokens contentStr ≥ policy.minChunkSize then
          chunks ++ [createChunk hash (ids chunks.length) filePath contentStr
            startLine (startLine + currentChunk.length - 1)]
        else chunks
      let overlapLines := calculateOverlapLines currentChunk policy.chunkOverlap
      let newTokens := estimateTokens (joinWith "\n" overlapLines)
      chunkLoop policy hash ids filePath rest (i + 1) chunks1 (overlapLines ++ [line])
        (newTokens + lineTokens) (i + 1 - overlapLines.length)
    else
      chunkLoop policy hash ids filePath rest (i + 1) chunks (currentChunk ++ [line])
        (currentTokens + lineTokens) startLine

/-- Translation of `ChunkerService.chunkContent`. -/
def chunkContent (policy : ChunkingPolicy) (hash : String → String) (ids : Nat → String)
    (filePath content : String) : List Chunk :=
  chunkLoop policy hash ids filePath (splitOnChar '\n' content) 0 [] [] 0 1

/-- The id-independent shape of a chunk: its boundaries, content and
checksum. -/
def chunkShape (c : Chunk) : String × String × Nat × Nat × String :=
  (c.content, c.filePath, c.startLine, c.endLine, c.checksum)

/-! ## MockEmbeddingAdapter (vector-service/src/services/embedding.adapter.ts) -/

/-- Truncation to a signed 32-bit integer, the effect of JS `| 0`,
`<< 5`-style operations and `Math.imul`. -/
def toInt32 (x : Int) : Int :=
  (x + 2147483648) % 4294967296 - 2147483648

/-- One step of the rolling string hash
`seed = ((seed << 5) - seed + charCode) | 0`. -/
def charCodeHashStep (seed : Int) (c : Char) : Int :=
  toInt32 (toInt32 (seed * 32) - seed + (c.toNat : Int))

/-- The seed derived from `text.toLowerCase().trim()`. -/
def textSeed (text : String) : Int :=
  (jsTrim (jsToLower text)).data.foldl charCodeHashStep 0

/-- One LCG step `s = Math.imul(48271, s) | 0`. (In the source the
trailing `% 2147483647` binds to the literal `0`, so it is a no-op.) -/
def lcgNext (s : Int) : Int :=
  toInt32 (48271 * s)

/-- The value drawn from one LCG state:
`(s & 2147483647) / 2147483648 * 2 - 1`. -/
def lcgValue (s : Int) : ℚ :=
  ((s % 2147483648 : Int) : ℚ) / 2147483648 * 2 - 1

/-- The pre-normalization component list: `dims` successive LCG draws. -/
def genRaw : Nat → Int → List ℚ
  | 0, _ => []
  | Nat.succ n, s =>
    let s1 := lcgNext s
    lcgValue s1 :: genRaw n s1

/-- The raw (pre-normalization) embedding of a text. -/
def rawEmbedding (dims : Nat) (text : String) : List ℚ :=
  genRaw dims (textSeed text)

/-- Sum of squares, the squared L2 magnitude used for normalization. -/
def sumSq (v : List ℚ) : ℚ :=
  (v.map (fun x => x * x)).sum

/-- Exact squared components after the final division by the magnitude:
`(x / sqrt (sumSq v)) ^ 2 = x * x / sumSq v`, so the squared L2 norm of
the adapter's normalized output is precisely the sum of this list. -/
def normalizedSq (v : List ℚ) : List ℚ :=
  v.map (fun x => x * x / sumSq v)

/-! ## GVRService (orchestrator/src/services/gvr.service.ts)

The collaborator HTTP calls (`searchVectors`, `getDependents`,
`getNodesForFile`) appear as `Option`-valued inputs: `none` models an
unreachable backend, which each `catch` block converts to `[]`. -/

/-- Graph context assembled for the focused files. -/
structure GraphContext where
  impactedFiles : List String
  dependencyChain : List DependencyResult
  modifiedSymbols : List String
deriving DecidableEq, Repr

/-- The three configured scoring weights. -/
structure GVRWeights where
  semantic : ℚ
  graph : ℚ
  focus : ℚ
deriving DecidableEq, Repr

/-- Per-result score components. -/
structure ScoreBreakdown where
  semantic : ℚ
  graphRelevance : ℚ
  focusBoost : ℚ
deriving DecidableEq, Repr

/-- One ranked GVR result. -/
structure GVRResult where
  id : String
  content : String
  filePath : String
  startLine : Nat
  endLine : Nat
  score : ℚ
  scoreBreakdown : ScoreBreakdown
  connectedFiles : List String
deriving DecidableEq, Repr

/-- A GVR query. -/
structure GVRQuery where
  query : String
  focusedFiles : List String
  topK : Nat
  graphDepth : Nat
  includeGraphContext : Bool
deriving DecidableEq, Repr

/-- Response of a GVR query (the timing metadata is not modelled). -/
structure GVRResponse where
  results : List GVRResult
  graphContext : Option GraphContext
deriving DecidableEq, Repr

/-- Translation of `GVRService.getDependents`: an unreachable CKG backend is caught and
degraded to the empty list. -/
def gvrGetDependents (response : Option (List DependencyResult)) : List DependencyResult :=
  response.getD []

/-- Translation of `GVRService.getNodesForFile`, with the same degradation. -/
def gvrGetNodesForFile (response : Option (List CKGNode)) : List CKGNode :=
  response.getD []

/-- Translation of `GVRService.buildGraphContext`: union the dependents of every focused
file into `impactedFiles` (a JS `Set` in insertion order), concatenate
the dependency chains, collect function/class/method names, and finally
add the focused files themselves. -/
def buildGraphContext (fetchDependents : String → Nat → Option (List DependencyResult))
    (fetchNodes : String → Option (List CKGNode))
    (focusedFiles : List String) (depth : Nat) : GraphContext :=
  let step := fun (acc : List String × List DependencyResult × List String) (file : String) =>
    let dependents := gvrGetDependents (fetchDependents file depth)
    let impacted1 := dependents.foldl (fun s d => addUnique s d.file) acc.1
    let chain1 := acc.2.1 ++ dependents
    let nodes := gvrGetNodesForFile (fetchNodes file)
    let symbols1 := acc.2.2 ++
      ((nodes.filter (fun n => n.type == "function" || n.type == "class" || n.type == "method")).map
        (fun n => n.name))
    (impacted1, chain1, symbols1)
  let folded := focusedFiles.foldl step ([], [], [])
  { impactedFiles := focusedFiles.foldl addUnique folded.1,
    dependencyChain := folded.2.1,
    modifiedSymbols := folded.2.2 }

/-- The body of the scoring loop of `GVRService.scoreResults` for one
vector hit. -/
def scoreOne (weights : GVRWeights) (graphContext : Option GraphContext)
    (focusedFiles : List String) (vr : SearchResult) : GVRResult :=
  let impactedFilesList := (graphContext.map (fun gc => gc.impactedFiles)).getD []
  let filePath := vr.document.filePath
  let semanticScore := vr.score
  let graphScore : ℚ := if impactedFilesList.contains filePath then 1 else 0
  let focusScore : ℚ := if focusedFiles.contains filePath then 1 else 0
  let combinedScore :=
    semanticScore * weights.semantic + graphScore * weights.graph + focusScore * weights.focus
  let connectedFiles :=
    (((graphContext.map (fun gc => gc.dependencyChain)).getD []).filter
        (fun d => d.file == filePath || impactedFilesList.contains d.file)).map (fun d => d.file)
  { id := vr.id, content := vr.document.content, filePath := filePath,
    startLine := vr.document.startLine, endLine := vr.document.endLine,
    score := combinedScore,
    scoreBreakdown :=
      { semantic := semanticScore, graphRelevance := graphScore, focusBoost := focusScore },
    connectedFiles := connectedFiles.take 5 }

/-- Translation of `GVRService.scoreResults`: score every vector hit, then sort by the
combined score descending (stable, as JS `Array.prototype.sort` is). -/
def scoreResults (vectorResults : List SearchResult) (graphContext : Option GraphContext)
    (focusedFiles : List String) (weights : GVRWeights) : List GVRResult :=
  sortDescBy (fun r => r.score) (vectorResults.map (scoreOne weights graphContext focusedFiles))

/-- Translation of `GVRService.query`: vector search (over-fetching `topK * 2` inside
the collaborator call, whose outcome is the `vectorResponse` input, with
`none` for an unreachable vector backend), optional graph context,
hybrid scoring and truncation to `topK`. -/
def gvrQuery (vectorResponse : Option (List SearchResult))
    (fetchDependents : String → Nat → Option (List DependencyResult))
    (fetchNodes : String → Option (List CKGNode))
    (q : GVRQuery) (weights : GVRWeights) : GVRResponse :=
  let vectorResults := vectorResponse.getD []
  let graphContext :=
    if q.includeGraphContext then
      some (buildGraphContext fetchDependents fetchNodes q.focusedFiles q.graphDepth)
    else none
  let scored := scoreResults vectorResults graphContext q.focusedFiles weights
  { results := scored.take q.topK, graphContext := graphContext }

/-! ## Shared auxiliary lemmas -/

/-- A predicate preserved by every step of a fold is preserved by the
whole fold. -/
theorem foldlInv {α σ : Type} (f : σ → α → σ) (Inv : σ → Prop)
    (hf : ∀ s a, Inv s → Inv (f s a)) : ∀ (l : List α) (s : σ), Inv s → Inv (l.foldl f s)
  | [], _, h => h
  | a :: l, s, h => foldlInv f Inv hf l (f s a) (hf s a h)

/-- A fold whose step fixes every state is the identity. -/
theorem foldlCongrId {α σ : Type} (f : σ → α → σ) :
    ∀ (l : List α) (s : σ), (∀ t a, a ∈ l → f t a = t) → l.foldl f s = s
  | [], _, _ => rfl
  | a :: l, s, h => by
    rw [List.foldl_cons, h s a (List.mem_cons_self a l)]
    exact foldlCongrId f l s (fun t b hb => h t b (List.mem_cons_of_mem a hb))

/-- Membership under stable descending insertion. -/
theorem mem_insertDescBy {α : Type} (key : α → ℚ) (x a : α) :
    ∀ l : List α, a ∈ insertDescBy key x l ↔ a = x ∨ a ∈ l
  | [] => by simp [insertDescBy]
  | y :: ys => by
    simp only [insertDescBy]
    by_cases h : key y ≤ key x
    · simp [h]
    · simp only [if_neg h, List.mem_cons, mem_insertDescBy key x a ys]
      tauto

/-- Membership under stable descending sort. -/
theorem mem_sortDescBy {α : Type} (key : α → ℚ) (a : α) :
    ∀ l : List α, a ∈ sortDescBy key l ↔ a ∈ l
  | [] => Iff.rfl
  | x :: xs => by
    simp only [sortDescBy, mem_insertDescBy, mem_sortDescBy key a xs, List.mem_cons]

/-- Updating a key then reading it back yields the written value. -/
theorem mapGet_mapSet_self {α : Type} (v : α) :
    ∀ (m : List (String × α)) (k : String), mapGet (mapSet m k v) k = some v
  | [], k => by simp [mapGet, mapSet, List.find?]
  | kv :: m, k => by
    by_cases h : kv.1 == k
    · simp [mapGet, mapSet, h, List.find?]
    · simp only [mapSet, h, Bool.false_eq_true, if_false]
      simp only [mapGet, List.find?, h]
      exact mapGet_mapSet_self v m k

/-- Membership in a JS-`Set` insertion. -/
theorem mem_addUnique (s : List String) (y x : String) :
    x ∈ addUnique s y ↔ x ∈ s ∨ x = y := by
  simp only [addUnique]
  by_cases h : s.contains y
  · have hy : y ∈ s := by simpa using h
    rw [if_pos h]
    constructor
    · exact fun hx => Or.inl hx
    · rintro (hx | rfl)
      · exact hx
      · exact hy
  · rw [if_neg h]
    simp [List.mem_append]

/-- Membership in a fold of JS-`Set` insertions. -/
theorem mem_foldl_addUnique (x : String) :
    ∀ (l : List String) (init : List String),
      x ∈ l.foldl addUnique init ↔ x ∈ init ∨ x ∈ l
  | [], init => by simp
  | a :: l, init => by
    rw [List.foldl_cons, mem_foldl_addUnique x l (addUnique init a), mem_addUnique]
    simp only [List.mem_cons]
    tauto

/-! ## C3: idempotent re-indexing -/

/-- C3. Re-running `indexFile` on a file whose content (hence parse
result and checksum) is unchanged is a no-op: the second of two
identical-content calls reports `updated = false`, creates nothing, and
returns the state of the first call unchanged — in particular the
graph's node and edge counts and the checksum map are unchanged. -/
theorem ckg_indexFile_idempotent (s : CKGState) (a : FileAnalysis) :
    indexFile ((indexFile s a).1) a = (((indexFile s a).1), ⟨false, 0, 0⟩) := by
  have hck : mapGet ((indexFile s a).1).fileChecksums a.filePath = some a.checksum := by
    by_cases h : mapGet s.fileChecksums a.filePath = some a.checksum
    · simp [indexFile, h]
    · simp [indexFile, h, mapGet_mapSet_self]
  rw [indexFile, if_pos hck]

/-! ## C4: no dangling edges after file removal -/

/-- C4. After `removeFileFromGraph`, as performed on deletion and on
re-index of a changed file, no surviving edge references — as source or
target — the id of any node that belonged to the removed file. -/
theorem ckg_remove_file_no_dangling (g : CKGraph) (filePath : String) :
    ∀ e ∈ (removeFileFromGraph g filePath).edges,
      ∀ kv ∈ g.nodes, kv.2.filePath = filePath →
        e.sourceId ≠ kv.1 ∧ e.targetId ≠ kv.1 := by
  intro e he kv hkv hfp
  simp only [removeFileFromGraph, List.mem_filter] at he
  obtain ⟨-, hpred⟩ := he
  have hmem : kv.1 ∈ (g.nodes.filter (fun kv => kv.2.filePath == filePath)).map (fun kv => kv.1) := by
    exact List.mem_map_of_mem _ (List.mem_filter.mpr ⟨hkv, by simp [hfp]⟩)
  simp only [Bool.and_eq_true, Bool.not_eq_true'] at hpred
  obtain ⟨hs, ht⟩ := hpred
  constructor
  · intro hcontra
    rw [hcontra] at hs
    exact absurd hs (by simpa using List.elem_eq_true_of_mem hmem)
  · intro hcontra
    rw [hcontra] at ht
    exact absurd ht (by simpa using List.elem_eq_true_of_mem hmem)

/-- Concrete instantiation of the no-dangling theorem: removing `P.ts`
from a two-file graph keeps only the Q-internal edge, and that edge does
not touch the id of the removed file node. -/
theorem ckg_remove_file_no_dangling_witness :
    (⟨"eQQ", "contains", "idQ", "idQ2"⟩ : CKGEdge) ∈
        (removeFileFromGraph
          ⟨[("idP", ⟨"idP", "file", "P", "P.ts", 1, 1⟩),
            ("idQ", ⟨"idQ", "file", "Q", "Q.ts", 1, 1⟩),
            ("idQ2", ⟨"idQ2", "function", "f", "Q.ts", 1, 1⟩)],
           [⟨"ePQ", "depends_on", "idP", "idQ"⟩, ⟨"eQQ", "contains", "idQ", "idQ2"⟩]⟩
          "P.ts").edges
      ∧ ("eQQ" ≠ "idP" ∧ "eQQ" ≠ "idP") ∧
      ((⟨"eQQ", "contains", "idQ", "idQ2"⟩ : CKGEdge).sourceId ≠ "idP"
        ∧ (⟨"eQQ", "contains", "idQ", "idQ2"⟩ : CKGEdge).targetId ≠ "idP") := by
  refine ⟨by decide, ⟨by decide, by decide⟩, ?_⟩
  exact ckg_remove_file_no_dangling
    ⟨[("idP", ⟨"idP", "file", "P", "P.ts", 1, 1⟩),
      ("idQ", ⟨"idQ", "file", "Q", "Q.ts", 1, 1⟩),
      ("idQ2", ⟨"idQ2", "function", "f", "Q.ts", 1, 1⟩)],
     [⟨"ePQ", "depends_on", "idP", "idQ"⟩, ⟨"eQQ", "contains", "idQ", "idQ2"⟩]⟩
    "P.ts" ⟨"eQQ", "contains", "idQ", "idQ2"⟩ (by decide)
    ("idP", ⟨"idP", "file", "P", "P.ts", 1, 1⟩) (by decide) (by decide)

/-! ## C7: chunker determinism up to the uuid supply -/

/-- The shape of a freshly created chunk does not depend on the id. -/
theorem chunkShape_createChunk (hash : String → String) (idv fp c : String) (s e : Nat) :
    chunkShape (createChunk hash idv fp c s e) = (c, fp, s, e, hash c) := rfl

/-- The chunk loop produces shape-identical output from shape-identical
accumulators, whatever id supplies are used. -/
theorem chunkLoop_shape (policy : ChunkingPolicy) (hash : String → String)
    (ids1 ids2 : Nat → String) (fp : String) :
    ∀ (lines : List String) (i : Nat) (chunks1 chunks2 : List Chunk)
      (cur : List String) (tok start : Nat),
      chunks1.map chunkShape = chunks2.map chunkShape →
      (chunkLoop policy hash ids1 fp lines i chunks1 cur tok start).map chunkShape
        = (chunkLoop policy hash ids2 fp lines i chunks2 cur tok start).map chunkShape
  | [], i, c1, c2, cur, tok, start, h => by
    simp only [chunkLoop]
    by_cases hcur : cur ≠ []
    · rw [if_pos hcur, if_pos hcur]
      by_cases hmin : estimateTokens (joinWith "\n" cur) ≥ policy.minChunkSize
      · rw [if_pos hmin, if_pos hmin]
        simp [List.map_append, h, chunkShape, createChunk]
      · rw [if_neg hmin, if_neg hmin]
        exact h
    · rw [if_neg hcur, if_neg hcur]
      exact h
  | line :: rest, i, c1, c2, cur, tok, start, h => by
    simp only [chunkLoop]
    by_cases hc : tok + estimateTokens line > policy.maxChunkSize ∧ cur ≠ []
    · rw [if_pos hc, if_pos hc]
      by_cases hmin : estimateTokens (joinWith "\n" cur) ≥ policy.minChunkSize
      · rw [if_pos hmin, if_pos hmin]
        exact chunkLoop_shape policy hash ids1 ids2 fp rest (i + 1) _ _ _ _ _
          (by simp [List.map_append, h, chunkShape, createChunk])
      · rw [if_neg hmin, if_neg hmin]
        exact chunkLoop_shape policy hash ids1 ids2 fp rest (i + 1) _ _ _ _ _ h
    · rw [if_neg hc, if_neg hc]
      exact chunkLoop_shape policy hash ids1 ids2 fp rest (i + 1) _ _ _ _ _ h

/-- C7. `chunkContent` is deterministic for a fixed policy and content:
the only nondeterminism in the source is the `uuidv4()` id of each
chunk, and any two runs (any two id supplies) produce identical chunk
boundaries (`startLine`, `endLine`, `content`) and identical checksums. -/
theorem chunker_shape_deterministic (policy : ChunkingPolicy) (hash : String → String)
    (ids1 ids2 : Nat → String) (filePath content : String) :
    (chunkContent policy hash ids1 filePath content).map chunkShape
      = (chunkContent policy hash ids2 filePath content).map chunkShape :=
  chunkLoop_shape policy hash ids1 ids2 filePath (splitOnChar '\n' content) 0 [] [] [] 0 1 rfl

/-! ## C2: the dependency walks -/

/-- Every entry the dependents walk appends lies at a depth between 1
and the bound and stems from a `depends_on` edge. -/
theorem traverseDependents_inv (g : CKGraph) (db : Nat) :
    ∀ (fuel : Nat) (nodeId : String) (cd : Nat) (st : TravState),
      1 ≤ cd →
      (∀ r ∈ st.results, 1 ≤ r.depth ∧ r.depth ≤ db ∧ r.relationship = "depends_on") →
      ∀ r ∈ (traverseDependents g db fuel nodeId cd st).results,
        1 ≤ r.depth ∧ r.depth ≤ db ∧ r.relationship = "depends_on"
  | 0, _, _, _, _, hst => hst
  | Nat.succ fuel, nodeId, cd, st, hcd, hst => by
    simp only [traverseDependents]
    by_cases hguard : cd > db ∨ st.visited.contains nodeId
    · rw [if_pos hguard]
      exact hst
    · rw [if_neg hguard]
      have hle : cd ≤ db := by
        rcases Nat.lt_or_ge db cd with h | h
        · exact absurd (Or.inl h) hguard
        · exact h
      refine foldlInv _
        (fun (st2 : TravState) => ∀ r ∈ st2.results,
          1 ≤ r.depth ∧ r.depth ≤ db ∧ r.relationship = "depends_on")
        ?_ g.edges _ hst
      intro st2 edge hinv
      by_cases hcond : edge.targetId == nodeId && edge.type == "depends_on"
      · rw [if_pos hcond]
        cases hsrc : mapGet g.nodes edge.sourceId with
        | none => exact hinv
        | some sourceNode =>
          rcases Bool.eq_false_or_eq_true (sourceNode.type == "file") with hfile | hfile
          · simp only [hfile, if_true]
            refine traverseDependents_inv g db fuel edge.sourceId (cd + 1) _
              (Nat.le_succ_of_le hcd) ?_
            intro r hr
            rcases List.mem_append.mp hr with hr | hr
            · exact hinv r hr
            · rcases List.mem_singleton.mp hr with rfl
              refine ⟨hcd, hle, ?_⟩
              have hdep : edge.type == "depends_on" := (Bool.and_eq_true _ _ |>.mp hcond).2
              simpa using hdep
          · simp only [hfile]
            simpa using hinv
      · rw [if_neg hcond]
        exact hinv

/-- Symmetric bound for the dependencies walk. -/
theorem traverseDependencies_inv (g : CKGraph) (db : Nat) :
    ∀ (fuel : Nat) (nodeId : String) (cd : Nat) (st : TravState),
      1 ≤ cd →
      (∀ r ∈ st.results, 1 ≤ r.depth ∧ r.depth ≤ db ∧ r.relationship = "depends_on") →
      ∀ r ∈ (traverseDependencies g db fuel nodeId cd st).results,
        1 ≤ r.depth ∧ r.depth ≤ db ∧ r.relationship = "depends_on"
  | 0, _, _, _, _, hst => hst
  | Nat.succ fuel, nodeId, cd, st, hcd, hst => by
    simp only [traverseDependencies]
    by_cases hguard : cd > db ∨ st.visited.contains nodeId
    · rw [if_pos hguard]
      exact hst
    · rw [if_neg hguard]
      have hle : cd ≤ db := by
        rcases Nat.lt_or_ge db cd with h | h
        · exact absurd (Or.inl h) hguard
        · exact h
      refine foldlInv _
        (fun (st2 : TravState) => ∀ r ∈ st2.results,
          1 ≤ r.depth ∧ r.depth ≤ db ∧ r.relationship = "depends_on")
        ?_ g.edges _ hst
      intro st2 edge hinv
      by_cases hcond : edge.sourceId == nodeId && edge.type == "depends_on"
      · rw [if_pos hcond]
        cases htgt : mapGet g.nodes edge.targetId with
        | none => exact hinv
        | some targetNode =>
          rcases Bool.eq_false_or_eq_true (targetNode.type == "file") with hfile | hfile
          · simp only [hfile, if_true]
            refine traverseDependencies_inv g db fuel edge.targetId (cd + 1) _
              (Nat.le_succ_of_le hcd) ?_
            intro r hr
            rcases List.mem_append.mp hr with hr | hr
            · exact hinv r hr
            · rcases List.mem_singleton.mp hr with rfl
              refine ⟨hcd, hle, ?_⟩
              have hdep : edge.type == "depends_on" := (Bool.and_eq_true _ _ |>.mp hcond).2
              simpa using hdep
          · simp only [hfile]
            simpa using hinv
      · rw [if_neg hcond]
        exact hinv

/-- C2 (amended). `getDependents` / `getDependencies` walk `depends_on`
edges (inbound / outbound respectively) with a visited set that stops a
node from being expanded twice, and every reported entry lies at a depth
between 1 and the bound and names a `depends_on` relationship. However
— see the counterexample — a file reached along several dependency
edges is reported once per discovering edge, so it may appear more than
once and at a depth deeper than its shallowest occurrence. -/
theorem ckg_dependency_walk_bounded (g : CKGraph) (filePath : String) (depth : Nat) :
    (∀ r ∈ getDependents g filePath depth,
      1 ≤ r.depth ∧ r.depth ≤ depth ∧ r.relationship = "depends_on")
    ∧ (∀ r ∈ getDependencies g filePath depth,
      1 ≤ r.depth ∧ r.depth ≤ depth ∧ r.relationship = "depends_on") := by
  constructor
  · intro r hr
    rw [getDependents] at hr
    cases hf : findFileNode g filePath with
    | none => rw [hf] at hr; cases hr
    | some fileNode =>
      rw [hf] at hr
      exact traverseDependents_inv g depth (depth + 2) fileNode.id 1 ⟨[], []⟩
        (Nat.le_refl 1) (by intro r hr; cases hr) r hr
  · intro r hr
    rw [getDependencies] at hr
    cases hf : findFileNode g filePath with
    | none => rw [hf] at hr; cases hr
    | some fileNode =>
      rw [hf] at hr
      exact traverseDependencies_inv g depth (depth + 2) fileNode.id 1 ⟨[], []⟩
        (Nat.le_refl 1) (by intro r hr; cases hr) r hr

/-- Diamond-shaped graph: `Y` and `Z` both depend on `X`, and `Y` also
depends on `Z`, so two dependency paths lead from `X` back to `Y`. -/
def cexDiamondGraph : CKGraph :=
  ⟨[("idX", ⟨"idX", "file", "X", "X.ts", 1, 1⟩),
    ("idY", ⟨"idY", "file", "Y", "Y.ts", 1, 1⟩),
    ("idZ", ⟨"idZ", "file", "Z", "Z.ts", 1, 1⟩)],
   [⟨"e1", "depends_on", "idY", "idZ"⟩,
    ⟨"e2", "depends_on", "idY", "idX"⟩,
    ⟨"e3", "depends_on", "idZ", "idX"⟩]⟩

/-- Counterexample to C2 as stated: with two dependency paths from `X`
to `Y`, `getDependents` reports `Y.ts` twice — once per discovering
edge, at depth 1 and again at depth 2 — so a file is neither reported
at most once nor only at its shallowest discovered depth. -/
theorem ckg_dependency_walk_duplicate_counterexample :
    getDependents cexDiamondGraph "X.ts" 2 =
      [⟨"Y.ts", 1, "depends_on"⟩, ⟨"Z.ts", 1, "depends_on"⟩, ⟨"Y.ts", 2, "depends_on"⟩]
    ∧ ¬ (((getDependents cexDiamondGraph "X.ts" 2).map (fun r => r.file)).Nodup) := by
  exact ⟨by decide, by decide⟩

/-- Concrete instantiation of the bounded-walk theorem on the diamond
graph: the entry for `Z.ts` lies within the depth bound and is a
`depends_on` relationship. -/
theorem ckg_dependency_walk_bounded_witness :
    1 ≤ (⟨"Z.ts", 1, "depends_on"⟩ : DependencyResult).depth
      ∧ (⟨"Z.ts", 1, "depends_on"⟩ : DependencyResult).depth ≤ 2
      ∧ (⟨"Z.ts", 1, "depends_on"⟩ : DependencyResult).relationship = "depends_on" :=
  (ckg_dependency_walk_bounded cexDiamondGraph "X.ts" 2).1
    ⟨"Z.ts", 1, "depends_on"⟩ (by decide)

/-! ## C1: hybrid scoring -/

/-- Boolean `contains` agrees with propositional membership. -/
theorem string_contains_iff_mem (l : List String) (x : String) :
    l.contains x = true ↔ x ∈ l := by
  simp

/-- A rational indicator over a Boolean membership test equals the
indicator over propositional membership. -/
theorem ite_contains_eq_mem (l : List String) (x : String) :
    (if l.contains x then (1 : ℚ) else 0) = if x ∈ l then (1 : ℚ) else 0 := by
  by_cases h : x ∈ l
  · simp [h]
  · simp [h]

/-- C1. Every ranked GVR result is the scoring of one vector hit; the
combined score of a hit is `wsem * semantic + wgraph * graphRelevance +
wfocus * focusBoost` with `graphRelevance` the indicator of membership
of the hit's file in `impactedFiles` and `focusBoost` the indicator of
membership in `focusedFiles`; consequently, for two hits with equal
semantic score, the same focus status and `wgraph > 0`, the hit whose
file is impacted scores at least the one whose file is not. -/
theorem gvr_combined_score_formula_and_monotonicity
    (vectorResults : List SearchResult) (graphContext : Option GraphContext)
    (focusedFiles : List String) (weights : GVRWeights) :
    (∀ r ∈ scoreResults vectorResults graphContext focusedFiles weights,
      ∃ vr ∈ vectorResults, r = scoreOne weights graphContext focusedFiles vr)
    ∧ (∀ vr : SearchResult,
        (scoreOne weights graphContext focusedFiles vr).score =
          vr.score * weights.semantic
          + (if vr.document.filePath ∈ (graphContext.map (fun gc => gc.impactedFiles)).getD []
              then (1 : ℚ) else 0) * weights.graph
          + (if vr.document.filePath ∈ focusedFiles then (1 : ℚ) else 0) * weights.focus)
    ∧ (∀ v1 v2 : SearchResult, 0 < weights.graph →
        v1.score = v2.score →
        (v1.document.filePath ∈ focusedFiles ↔ v2.document.filePath ∈ focusedFiles) →
        v1.document.filePath ∈ (graphContext.map (fun gc => gc.impactedFiles)).getD [] →
        v2.document.filePath ∉ (graphContext.map (fun gc => gc.impactedFiles)).getD [] →
        (scoreOne weights graphContext focusedFiles v2).score
          ≤ (scoreOne weights graphContext focusedFiles v1).score) := by
  have hscore : ∀ vr : SearchResult,
      (scoreOne weights graphContext focusedFiles vr).score =
        vr.score * weights.semantic
        + (if vr.document.filePath ∈ (graphContext.map (fun gc => gc.impactedFiles)).getD []
            then (1 : ℚ) else 0) * weights.graph
        + (if vr.document.filePath ∈ focusedFiles then (1 : ℚ) else 0) * weights.focus := by
    intro vr
    have h1 : (scoreOne weights graphContext focusedFiles vr).score =
        vr.score * weights.semantic
        + (if ((graphContext.map (fun gc => gc.impactedFiles)).getD []).contains
            vr.document.filePath then (1 : ℚ) else 0) * weights.graph
        + (if focusedFiles.contains vr.document.filePath then (1 : ℚ) else 0)
            * weights.focus := rfl
    rw [h1, ite_contains_eq_mem, ite_contains_eq_mem]
  refine ⟨?_, hscore, ?_⟩
  · intro r hr
    rw [scoreResults] at hr
    obtain ⟨vr, hvr, heq⟩ := List.mem_map.mp ((mem_sortDescBy _ r _).mp hr)
    exact ⟨vr, hvr, heq.symm⟩
  · intro v1 v2 hw hsem hfoc h1 h2
    rw [hscore v1, hscore v2, hsem, if_pos h1, if_neg h2]
    have hfe : (if v1.document.filePath ∈ focusedFiles then (1 : ℚ) else 0)
        = if v2.document.filePath ∈ focusedFiles then (1 : ℚ) else 0 := by
      by_cases hf : v1.document.filePath ∈ focusedFiles
      · rw [if_pos hf, if_pos (hfoc.mp hf)]
      · rw [if_neg hf, if_neg (fun hc => hf (hfoc.mpr hc))]
    rw [hfe]
    have hg : (0 : ℚ) * weights.graph ≤ 1 * weights.graph := by
      rw [zero_mul, one_mul]
      exact le_of_lt hw
    linarith

/-- Graph context marking only `A.ts` as impacted. -/
def c1Gc : GraphContext := ⟨["A.ts"], [], []⟩

/-- Two hits with equal semantic score, one in the impacted file. -/
def c1Hit1 : SearchResult := ⟨"d1", 1, ⟨"d1", "c1", [1], "x", "A.ts", 1, 1⟩⟩

/-- The otherwise-identical hit in a non-impacted file. -/
def c1Hit2 : SearchResult := ⟨"d2", 1, ⟨"d2", "c2", [1], "y", "C.ts", 1, 1⟩⟩

/-- Concrete instantiation of the scoring monotonicity: with all weights
1, the impacted-file hit scores at least the non-impacted one. -/
theorem gvr_combined_score_formula_and_monotonicity_witness :
    (scoreOne ⟨1, 1, 1⟩ (some c1Gc) [] c1Hit2).score
      ≤ (scoreOne ⟨1, 1, 1⟩ (some c1Gc) [] c1Hit1).score :=
  (gvr_combined_score_formula_and_monotonicity [] (some c1Gc) [] ⟨1, 1, 1⟩).2.2 c1Hit1 c1Hit2
    (by norm_num) rfl (by simp [c1Hit1, c1Hit2]) (by decide) (by decide)

/-! ## C9: graph-backend failure during a query -/

/-- With the CKG backend unreachable, `buildGraphContext` degrades to the
focused files themselves: no dependents, no chain, no symbols. -/
theorem buildGraphContext_dead (focusedFiles : List String) (depth : Nat) :
    buildGraphContext (fun _ _ => none) (fun _ => none) focusedFiles depth =
      ⟨focusedFiles.foldl addUnique [], [], []⟩ := by
  rw [buildGraphContext]
  have hfold :
      focusedFiles.foldl
        (fun (acc : List String × List DependencyResult × List String) (file : String) =>
          let dependents := gvrGetDependents ((fun _ _ => none : String → Nat →
            Option (List DependencyResult)) file depth)
          let impacted1 := dependents.foldl (fun s d => addUnique s d.file) acc.1
          let chain1 := acc.2.1 ++ dependents
          let nodes := gvrGetNodesForFile ((fun _ => none : String →
            Option (List CKGNode)) file)
          let symbols1 := acc.2.2 ++
            ((nodes.filter (fun n => n.type == "function" || n.type == "class"
              || n.type == "method")).map (fun n => n.name))
          (impacted1, chain1, symbols1)) ([], [], []) = ([], [], []) := by
    refine foldlCongrId _ focusedFiles ([], [], []) ?_
    intro t a _
    simp [gvrGetDependents, gvrGetNodesForFile]
  rw [hfold]

/-- C9 (amended). If the graph backend is unreachable during a GVR query
the query still completes with degraded graph context: the dependents
and node signals are caught and emptied, so `impactedFiles` collapses to
exactly the focused files themselves; consequently `graphRelevance` is 0
for every hit whose file is not a focused file — but a hit in a focused
file still receives `graphRelevance = 1`, not 0. -/
theorem gvr_backend_failure_degradation (vectorResults : List SearchResult)
    (q : GVRQuery) (weights : GVRWeights) (hq : q.includeGraphContext = true) :
    (gvrQuery (some vectorResults) (fun _ _ => none) (fun _ => none) q weights).graphContext
        = some ⟨q.focusedFiles.foldl addUnique [], [], []⟩
    ∧ (∀ x, x ∈ q.focusedFiles.foldl addUnique [] ↔ x ∈ q.focusedFiles)
    ∧ (∀ r ∈ (gvrQuery (some vectorResults) (fun _ _ => none) (fun _ => none) q weights).results,
        (r.filePath ∉ q.focusedFiles → r.scoreBreakdown.graphRelevance = 0)
        ∧ (r.filePath ∈ q.focusedFiles → r.scoreBreakdown.graphRelevance = 1)) := by
  have hmemfold : ∀ x, x ∈ q.focusedFiles.foldl addUnique [] ↔ x ∈ q.focusedFiles := by
    intro x
    rw [mem_foldl_addUnique]
    simp
  refine ⟨?_, hmemfold, ?_⟩
  · simp only [gvrQuery, hq, if_true, buildGraphContext_dead]
  · intro r hr
    simp only [gvrQuery, hq, if_true, buildGraphContext_dead] at hr
    have hr2 := List.mem_of_mem_take hr
    obtain ⟨vr, hvr, heq⟩ :=
      List.mem_map.mp ((mem_sortDescBy _ r _).mp hr2)
    have hfp : r.filePath = vr.document.filePath := by rw [← heq]; rfl
    have hgr : r.scoreBreakdown.graphRelevance =
        if (q.focusedFiles.foldl addUnique []).contains vr.document.filePath
          then (1 : ℚ) else 0 := by
      rw [← heq]
      rfl
    constructor
    · intro hnf
      rw [hgr, if_neg]
      intro hc
      exact hnf ((hmemfold r.filePath).mp (by
        rw [hfp]
        exact (string_contains_iff_mem _ _).mp hc))
    · intro hf
      rw [hgr, if_pos]
      exact (string_contains_iff_mem _ _).mpr ((hmemfold vr.document.filePath).mpr (hfp ▸ hf))

/-- A GVR query focused on `A.ts`. -/
def c9Query : GVRQuery := ⟨"find", ["A.ts"], 10, 2, true⟩

/-- One vector hit located in the focused file `A.ts`. -/
def c9Hit : SearchResult := ⟨"d1", 1, ⟨"d1", "c1", [1], "content", "A.ts", 1, 5⟩⟩

/-- Counterexample to C9 as stated: with the graph backend unreachable
(every collaborator call fails and is caught), the hit in the focused
file `A.ts` still receives `graphRelevance = 1.0`, not 0, because the
focused files themselves remain in `impactedFiles`. -/
theorem gvr_degraded_graphRelevance_counterexample :
    (gvrQuery (some [c9Hit]) (fun _ _ => none) (fun _ => none) c9Query ⟨1, 1, 1⟩).results.map
        (fun r => r.scoreBreakdown.graphRelevance) = [1] := rfl

/-- Concrete instantiation of the degradation theorem: the degraded
graph context of a query focused on `A.ts` lists exactly `A.ts`, and a
hit in the unrelated file `C.ts` receives `graphRelevance = 0`. -/
theorem gvr_backend_failure_degradation_witness :
    (gvrQuery (some [⟨"d2", 1, ⟨"d2", "c2", [1], "y", "C.ts", 1, 1⟩⟩])
        (fun _ _ => none) (fun _ => none) c9Query ⟨1, 1, 1⟩).graphContext
      = some ⟨["A.ts"].foldl addUnique [], [], []⟩ := by
  exact (gvr_backend_failure_degradation
    [⟨"d2", 1, ⟨"d2", "c2", [1], "y", "C.ts", 1, 1⟩⟩] c9Query ⟨1, 1, 1⟩ rfl).1

/-! ## C6: dimension mismatch and empty-store search -/

/-- With equal lengths, `cosineSimilarity` succeeds. -/
theorem cosineSimilarity_ok_of_length_eq (sqrtFn : ℚ → ℚ) (a b : List ℚ)
    (h : a.length = b.length) : ∃ q, cosineSimilarity sqrtFn a b = Except.ok q := by
  rw [cosineSimilarity, if_neg (by simp [h])]
  dsimp only
  split
  · exact ⟨0, rfl⟩
  · exact ⟨_, rfl⟩

/-- With different lengths, `cosineSimilarity` throws. -/
theorem cosineSimilarity_mismatch (sqrtFn : ℚ → ℚ) (a b : List ℚ)
    (h : a.length ≠ b.length) :
    cosineSimilarity sqrtFn a b = Except.error "Vectors must have same length" := by
  rw [cosineSimilarity, if_pos h]

/-- The scoring fold of `storeSearch` (without filters) aborts with the
thrown error as soon as any scanned document's vector length differs
from the query's. -/
theorem searchFold_error (sqrtFn : ℚ → ℚ) (emb : List ℚ) :
    ∀ (docs : List VectorDocument) (acc : List SearchResult),
      (∃ doc ∈ docs, doc.embedding.length ≠ emb.length) →
      docs.foldlM
        (fun acc doc =>
          if passesFilters none doc then do
            let score ← cosineSimilarity sqrtFn emb doc.embedding
            pure (acc ++ [{ id := doc.id, score := score, document := doc }])
          else pure acc)
        acc = Except.error "Vectors must have same length"
  | [], _, h => absurd h (by simp)
  | d :: docs, acc, h => by
    rw [List.foldlM_cons]
    by_cases hd : emb.length = d.embedding.length
    · obtain ⟨q, hq⟩ := cosineSimilarity_ok_of_length_eq sqrtFn emb d.embedding hd
      have hstep : (if passesFilters none d then do
            let score ← cosineSimilarity sqrtFn emb d.embedding
            pure (acc ++ [{ id := d.id, score := score, document := d }])
          else pure acc)
          = Except.ok (acc ++ [{ id := d.id, score := q, document := d }]) := by
        rw [if_pos (show passesFilters none d = true from rfl), hq]
        rfl
      rw [hstep]
      have hrest : ∃ doc ∈ docs, doc.embedding.length ≠ emb.length := by
        obtain ⟨doc, hmem, hlen⟩ := h
        rcases List.mem_cons.mp hmem with rfl | hmem2
        · exact absurd hd.symm hlen
        · exact ⟨doc, hmem2, hlen⟩
      exact searchFold_error sqrtFn emb docs _ hrest
    · have hstep : (if passesFilters none d then do
            let score ← cosineSimilarity sqrtFn emb d.embedding
            pure (acc ++ [{ id := d.id, score := score, document := d }])
          else pure acc)
          = Except.error "Vectors must have same length" := by
        rw [if_pos (show passesFilters none d = true from rfl),
          cosineSimilarity_mismatch sqrtFn emb d.embedding hd]
        rfl
      rw [hstep]
      rfl

/-- C6. `InMemoryVectorStore.search` over an empty store returns the
empty result rather than erroring, while a query vector whose length
differs from that of a stored vector makes the whole call fail with the
terminal dimension-mismatch error. The scan never mutates the store
(the model's search takes the store by value and returns only results),
so the store's contents are unchanged in either case. -/
theorem vector_search_mismatch_and_empty (sqrtFn : ℚ → ℚ) (store : InMemoryVectorStore)
    (embedding : List ℚ) (topK : Nat) :
    (store.documents = [] → storeSearch sqrtFn store embedding topK none = Except.ok [])
    ∧ ((∃ doc ∈ mapValues store.documents, doc.embedding.length ≠ embedding.length) →
        storeSearch sqrtFn store embedding topK none
          = Except.error "Vectors must have same length") := by
  constructor
  · intro h
    rw [storeSearch, h]
    show (pure ((sortDescBy (fun r => r.score) []).take topK) : Except String (List SearchResult))
      = Except.ok []
    rw [show sortDescBy (fun r : SearchResult => r.score) [] = [] from rfl, List.take_nil]
    rfl
  · intro h
    rw [storeSearch]
    have herr := searchFold_error sqrtFn embedding (mapValues store.documents) [] h
    rw [herr]
    rfl

/-- A stored document whose vector has length 3. -/
def c6Doc : VectorDocument := ⟨"v2", "c2", [0, 1, 0], "y", "f", 1, 1⟩

/-- Concrete instantiation: a 2-dimensional query against the store
holding `c6Doc` errors with the dimension-mismatch message, and the same
query against an empty store returns the empty result. -/
theorem vector_search_mismatch_and_empty_witness :
    storeSearch (fun q => q) ⟨[("v2", c6Doc)], [("f", ["v2"])]⟩ [1, 0] 5 none
        = Except.error "Vectors must have same length"
    ∧ storeSearch (fun q => q) ⟨[], []⟩ [1, 0] 5 none = Except.ok [] :=
  ⟨(vector_search_mismatch_and_empty (fun q => q) ⟨[("v2", c6Doc)], [("f", ["v2"])]⟩ [1, 0] 5).2
      ⟨c6Doc, by decide, by decide⟩,
   (vector_search_mismatch_and_empty (fun q => q) ⟨[], []⟩ [1, 0] 5).1 rfl⟩

/-! ## C8: the embedding contract -/

/-- The LCG expansion yields exactly the requested number of values. -/
theorem genRaw_length : ∀ (n : Nat) (s : Int), (genRaw n s).length = n
  | 0, _ => rfl
  | Nat.succ n, s => by
    rw [genRaw]
    simp [genRaw_length n]

/-- Sums of squares are nonnegative. -/
theorem sumSq_nonneg : ∀ v : List ℚ, 0 ≤ sumSq v
  | [] => le_refl 0
  | x :: v => by
    rw [sumSq, List.map_cons, List.sum_cons]
    exact add_nonneg (mul_self_nonneg x) (sumSq_nonneg v)

/-- A vector with a nonzero component has positive sum of squares. -/
theorem sumSq_pos_of_mem {x : ℚ} :
    ∀ {v : List ℚ}, x ∈ v → x ≠ 0 → 0 < sumSq v
  | [], hm, _ => absurd hm (List.not_mem_nil x)
  | y :: v, hm, hx => by
    rw [sumSq, List.map_cons, List.sum_cons]
    rcases List.mem_cons.mp hm with rfl | hm2
    · exact add_pos_of_pos_of_nonneg (mul_self_pos.mpr hx) (sumSq_nonneg v)
    · exact add_pos_of_nonneg_of_pos (mul_self_nonneg y) (sumSq_pos_of_mem hm2 hx)

/-- Dividing each squared component by a common denominator divides the
sum. -/
theorem sum_map_sq_div (S : ℚ) :
    ∀ v : List ℚ, (v.map (fun x => x * x / S)).sum = (v.map (fun x => x * x)).sum / S
  | [] => by simp
  | x :: v => by
    rw [List.map_cons, List.sum_cons, List.map_cons, List.sum_cons, add_div,
      sum_map_sq_div S v]

/-- C8. The mock embedding adapter returns a vector of exactly
`dimensions` length; when the pre-normalization vector is nonzero the
normalized output has squared L2 norm exactly 1 (each normalized
component squared is `x * x / sumSq`); and identical input text yields
an identical output vector. -/
theorem embedding_contract (dims : Nat) (text : String) :
    (rawEmbedding dims text).length = dims
    ∧ (sumSq (rawEmbedding dims text) ≠ 0 → (normalizedSq (rawEmbedding dims text)).sum = 1)
    ∧ (∀ other : String, other = text → rawEmbedding dims other = rawEmbedding dims text) := by
  refine ⟨genRaw_length dims (textSeed text), ?_, ?_⟩
  · intro h
    rw [normalizedSq, sum_map_sq_div]
    exact div_self h
  · intro other hother
    rw [hother]

/-- The value drawn from an LCG state whose masked 31-bit part is not
exactly `2 ^ 30` is nonzero. -/
theorem lcgValue_ne_zero (s : Int) (h : s % 2147483648 ≠ 1073741824) :
    lcgValue s ≠ 0 := by
  intro heq
  apply h
  rw [lcgValue] at heq
  have hq : ((s % 2147483648 : Int) : ℚ) = 1073741824 := by
    field_simp at heq
    linarith
  exact_mod_cast hq

/-- Concrete instantiation of the embedding contract at `dims = 4`,
`text = "abc"`: the vector has length 4 and the pre-normalization sum of
squares is nonzero, so the normalized squared norm is exactly 1. -/
theorem embedding_contract_witness :
    (rawEmbedding 4 "abc").length = 4 ∧ (normalizedSq (rawEmbedding 4 "abc")).sum = 1 := by
  refine ⟨(embedding_contract 4 "abc").1, (embedding_contract 4 "abc").2.1 ?_⟩
  have hmem : lcgValue (lcgNext (textSeed "abc")) ∈ rawEmbedding 4 "abc" := by
    show lcgValue (lcgNext (textSeed "abc")) ∈
      lcgValue (lcgNext (textSeed "abc")) :: genRaw 3 (lcgNext (textSeed "abc"))
    exact List.mem_cons_self _ _
  exact (ne_of_gt (sumSq_pos_of_mem hmem (lcgValue_ne_zero _ (by decide))))

/-! ## C5: import resolution priority and the two-file scenario -/

/-- If no candidate has a file node, the candidate loop produces no edge
(the unresolved import is left unlinked, not errored). -/
theorem tryCandidates_none (g : CKGraph) (cur : String) :
    ∀ cands : List String, (∀ x ∈ cands, findFileNode g x = none) →
      tryCandidates g cur cands = []
  | [], _ => rfl
  | c :: rest, h => by
    rw [tryCandidates, h c (List.mem_cons_self c rest)]
    exact tryCandidates_none g cur rest (fun x hx => h x (List.mem_cons_of_mem c hx))

/-- The first candidate owning a file node wins: all earlier candidates
unresolved, this one resolved, the loop emits exactly the one
`depends_on` edge (provided the importing file has a node) and stops. -/
theorem tryCandidates_first (g : CKGraph) (cur c : String) (post : List String)
    (fn : CKGNode) (hc : findFileNode g c = some fn) :
    ∀ pre : List String, (∀ x ∈ pre, findFileNode g x = none) →
      tryCandidates g cur (pre ++ c :: post) =
        (match findFileNode g cur with
         | some curNode =>
           [{ id := "dep_" ++ curNode.id ++ "_" ++ fn.id, type := "depends_on",
              sourceId := curNode.id, targetId := fn.id }]
         | none => [])
  | [], _ => by
    rw [List.nil_append, tryCandidates, hc]
  | p :: pre, h => by
    rw [List.cons_append, tryCandidates, h p (List.mem_cons_self p _)]
    exact tryCandidates_first g cur c post fn hc pre
      (fun x hx => h x (List.mem_cons_of_mem p hx))

/-- Injective stand-in for the md5 digest slice inside
`generateNodeId`: the external digest is opaque; what the embedded code
relies on is its collision-freeness on the inputs involved. -/
def md5Stub (s : String) : String := s

/-- Stand-in supply for the `uuidv4()` edge ids. -/
def uuidStub (n : Nat) : String := "uuid_" ++ Nat.repr n

/-- Injective stand-in for the sha256 content checksum. -/
def sha256Stub (s : String) : String := "sha256_" ++ s

/-- Double-quote character, used to build TypeScript source text
without quote escapes. -/
def jsQuote : String := String.mk [Char.ofNat 34]

/-- Content of the scenario file `proj/A.ts`: one namespace import of
the relative specifier `./B.ts`. -/
def tsFileAContent : String := "import * as B from " ++ jsQuote ++ "./B.ts" ++ jsQuote ++ ";\n"

/-- Output of the embedded `parseFile` on `proj/A.ts` with content
`tsFileAContent`: the file node, the node and the `imports` edge for
the single relative specifier `./B.ts`, and the matching record. -/
def scnAAnalysis : FileAnalysis :=
  parseFileModel md5Stub uuidStub sha256Stub "proj/A.ts" tsFileAContent
    [TsDecl.importDecl "./B.ts" ["B"] 1 1]

/-- Output of the embedded `parseFile` on `proj/B.ts` with content
`export const b = 1;` — just the file node (variable declarations
produce no graph nodes). -/
def scnBAnalysis : FileAnalysis :=
  parseFileModel md5Stub uuidStub sha256Stub "proj/B.ts" "export const b = 1;\n" []

/-- The empty service state. -/
def scnEmpty : CKGState := ⟨⟨[], []⟩, []⟩

/-- State after indexing `A.ts` first and `B.ts` second. -/
def scnStateAB : CKGState := (indexFile (indexFile scnEmpty scnAAnalysis).1 scnBAnalysis).1

/-- State after indexing `B.ts` first and `A.ts` second. -/
def scnStateBA : CKGState := (indexFile (indexFile scnEmpty scnBAnalysis).1 scnAAnalysis).1

/-- C5 (amended). Candidate paths for a relative import are generated in
the fixed priority order `.ts`, `.tsx`, `/index.ts`, `/index.tsx`, raw;
the first candidate with an existing file node yields the single
`depends_on` edge from the importing file's node; when no candidate
resolves the import is left unlinked without error. The two-file
scenario holds in the order that lets the import resolve: after indexing
`B.ts` and then `A.ts` (which imports `./B.ts`),
`getDependents("proj/B.ts", 2)` contains exactly `A.ts` at depth 1 —
whereas indexing `A.ts` before `B.ts` leaves the import unresolved (see
the counterexample). -/
theorem ckg_import_resolution_priority_and_scenario :
    (∀ baseDir source : String, possiblePaths baseDir source =
      [ pathJoin baseDir (source ++ ".ts"),
        pathJoin baseDir (source ++ ".tsx"),
        pathJoin baseDir (source ++ "/index.ts"),
        pathJoin baseDir (source ++ "/index.tsx"),
        pathJoin baseDir source ])
    ∧ (∀ (g : CKGraph) (cur : String) (pre : List String) (c : String) (post : List String)
        (fn : CKGNode), (∀ x ∈ pre, findFileNode g x = none) → findFileNode g c = some fn →
        tryCandidates g cur (pre ++ c :: post) =
          (match findFileNode g cur with
           | some curNode =>
             [{ id := "dep_" ++ curNode.id ++ "_" ++ fn.id, type := "depends_on",
                sourceId := curNode.id, targetId := fn.id }]
           | none => []))
    ∧ (∀ (g : CKGraph) (cur : String) (cands : List String),
        (∀ x ∈ cands, findFileNode g x = none) → tryCandidates g cur cands = [])
    ∧ getDependents scnStateBA.graph "proj/B.ts" 2 = [⟨"proj/A.ts", 1, "depends_on"⟩] := by
  refine ⟨fun baseDir source => rfl, ?_, ?_, by decide⟩
  · intro g cur pre c post fn hpre hc
    exact tryCandidates_first g cur c post fn hc pre hpre
  · intro g cur cands h
    exact tryCandidates_none g cur cands h

/-- Counterexample to C5's scenario as stated: indexing `A.ts` (which
imports `./B.ts`) first and `B.ts` second leaves the import unresolved —
`B.ts` has no file node yet when `A.ts` is linked, and linking is never
retried — so `getDependents("proj/B.ts", 2)` is empty and in particular
does not include `A.ts` at depth 1. -/
theorem ckg_import_scenario_order_counterexample :
    getDependents scnStateAB.graph "proj/B.ts" 2 = [] := by decide

/-- Concrete instantiation of the first-candidate rule: in the state
where `B.ts` was indexed first, the raw-path candidate `proj/B.ts` is
the first existing one and the loop emits the `depends_on` edge from
`A.ts`'s file node to `B.ts`'s. -/
theorem ckg_import_resolution_priority_witness :
    tryCandidates scnStateBA.graph "proj/A.ts"
        (["proj/B.ts.ts", "proj/B.ts.tsx", "proj/B.ts/index.ts", "proj/B.ts/index.tsx"]
          ++ "proj/B.ts" :: []) =
      [{ id := "dep_file_proj/A.ts:file:A.ts_file_proj/B.ts:file:B.ts",
         type := "depends_on",
         sourceId := "file_proj/A.ts:file:A.ts",
         targetId := "file_proj/B.ts:file:B.ts" }] := by
  have h := ckg_import_resolution_priority_and_scenario.2.1 scnStateBA.graph "proj/A.ts"
    ["proj/B.ts.ts", "proj/B.ts.tsx", "proj/B.ts/index.ts", "proj/B.ts/index.tsx"]
    "proj/B.ts" [] ⟨"file_proj/B.ts:file:B.ts", "file", "B.ts", "proj/B.ts", 1, 2⟩
    (by decide) (by decide)
  rw [h]
  decide

/-! ## C10: re-indexing a changed file removes its inbound edges -/

/-- Entries of a `Map.set` result: the written pair or an original
entry. -/
theorem mem_mapSet {α : Type} {kv : String × α} (k : String) (v : α) :
    ∀ m : List (String × α), kv ∈ mapSet m k v → kv = (k, v) ∨ kv ∈ m
  | [], h => by
    rcases List.mem_singleton.mp h with rfl
    exact Or.inl rfl
  | kv2 :: m, h => by
    rw [mapSet] at h
    by_cases hk : kv2.1 == k
    · rw [if_pos hk] at h
      rcases List.mem_cons.mp h with rfl | h2
      · exact Or.inl rfl
      · exact Or.inr (List.mem_cons_of_mem kv2 h2)
    · rw [if_neg hk] at h
      rcases List.mem_cons.mp h with rfl | h2
      · exact Or.inr (List.mem_cons_self _ _)
      · rcases mem_mapSet k v m h2 with h3 | h3
        · exact Or.inl h3
        · exact Or.inr (List.mem_cons_of_mem kv2 h3)

/-- Entries after folding node insertions: a freshly inserted
`(node.id, node)` pair or an entry of the initial map. -/
theorem mem_foldl_mapSet_nodes {kv : String × CKGNode} :
    ∀ (nodes : List CKGNode) (m0 : List (String × CKGNode)),
      kv ∈ nodes.foldl (fun m n => mapSet m n.id n) m0 →
      (∃ n ∈ nodes, kv = (n.id, n)) ∨ kv ∈ m0
  | [], _, h => Or.inr h
  | n :: nodes, m0, h => by
    rw [List.foldl_cons] at h
    rcases mem_foldl_mapSet_nodes nodes (mapSet m0 n.id n) h with ⟨n2, hn2, hkv⟩ | h2
    · exact Or.inl ⟨n2, List.mem_cons_of_mem n hn2, hkv⟩
    · rcases mem_mapSet n.id n m0 h2 with h3 | h3
      · exact Or.inl ⟨n, List.mem_cons_self n nodes, h3⟩
      · exact Or.inr h3

/-- Entries surviving a `Map.delete`. -/
theorem mem_mapDelete {α : Type} {kv : String × α} {k : String} {m : List (String × α)}
    (h : kv ∈ mapDelete m k) : kv ∈ m ∧ kv.1 ≠ k := by
  rw [mapDelete] at h
  have h2 := List.mem_filter.mp h
  refine ⟨h2.1, ?_⟩
  simpa using h2.2

/-- Entries surviving a fold of `Map.delete`s. -/
theorem mem_foldl_mapDelete {α : Type} {kv : String × α} :
    ∀ (ids : List String) (m : List (String × α)),
      kv ∈ ids.foldl (fun m k => mapDelete m k) m → kv ∈ m ∧ kv.1 ∉ ids
  | [], _, h => ⟨h, List.not_mem_nil _⟩
  | k :: ids, m, h => by
    rw [List.foldl_cons] at h
    obtain ⟨h1, h2⟩ := mem_foldl_mapDelete ids (mapDelete m k) h
    obtain ⟨h3, h4⟩ := mem_mapDelete h1
    refine ⟨h3, ?_⟩
    intro hc
    rcases List.mem_cons.mp hc with rfl | hc2
    · exact h4 rfl
    · exact h2 hc2

/-- Keys appearing after a `Map.set`. -/
theorem mapSet_keys_mem {α : Type} {x : String} (k : String) (v : α) :
    ∀ m : List (String × α), x ∈ (mapSet m k v).map (fun kv => kv.1) →
      x = k ∨ x ∈ m.map (fun kv => kv.1)
  | [], h => by
    rw [mapSet] at h
    rcases List.mem_map.mp h with ⟨kv3, hkv3, rfl⟩
    rcases List.mem_singleton.mp hkv3 with rfl
    exact Or.inl rfl
  | kv2 :: m, h => by
    rw [mapSet] at h
    by_cases hk : kv2.1 == k
    · rw [if_pos hk] at h
      rcases List.mem_map.mp h with ⟨kv3, hkv3, rfl⟩
      rcases List.mem_cons.mp hkv3 with rfl | h3
      · exact Or.inl rfl
      · exact Or.inr (List.mem_map_of_mem _ (List.mem_cons_of_mem kv2 h3))
    · rw [if_neg hk, List.map_cons] at h
      rcases List.mem_cons.mp h with rfl | h2
      · exact Or.inr (by simp)
      · rcases mapSet_keys_mem k v m h2 with h3 | h3
        · exact Or.inl h3
        · rcases List.mem_map.mp h3 with ⟨kv3, hkv3, rfl⟩
          exact Or.inr (List.mem_map_of_mem _ (List.mem_cons_of_mem kv2 hkv3))

/-- JS `Map.set` preserves key uniqueness. -/
theorem mapSet_keys_nodup {α : Type} (k : String) (v : α) :
    ∀ m : List (String × α), (m.map (fun kv => kv.1)).Nodup →
      ((mapSet m k v).map (fun kv => kv.1)).Nodup
  | [], _ => by
    rw [mapSet]
    simp
  | kv2 :: m, h => by
    rw [List.map_cons, List.nodup_cons] at h
    rw [mapSet]
    by_cases hk : kv2.1 == k
    · rw [if_pos hk, List.map_cons, List.nodup_cons]
      have hkeq : kv2.1 = k := by simpa using hk
      exact ⟨hkeq ▸ h.1, h.2⟩
    · rw [if_neg hk, List.map_cons, List.nodup_cons]
      refine ⟨?_, mapSet_keys_nodup k v m h.2⟩
      intro hc
      rcases mapSet_keys_mem k v m hc with h3 | h3
      · exact absurd h3 (by simpa using hk)
      · exact h.1 h3

/-- Folding node insertions preserves key uniqueness. -/
theorem foldl_mapSet_keys_nodup :
    ∀ (nodes : List CKGNode) (m0 : List (String × CKGNode)),
      (m0.map (fun kv => kv.1)).Nodup →
      ((nodes.foldl (fun m n => mapSet m n.id n) m0).map (fun kv => kv.1)).Nodup
  | [], _, h => h
  | n :: nodes, m0, h => by
    rw [List.foldl_cons]
    exact foldl_mapSet_keys_nodup nodes (mapSet m0 n.id n) (mapSet_keys_nodup n.id n m0 h)

/-- The delete fold produces a sublist of the original map. -/
theorem foldl_mapDelete_sublist {α : Type} :
    ∀ (ids : List String) (m : List (String × α)),
      (ids.foldl (fun m k => mapDelete m k) m).Sublist m
  | [], _ => List.Sublist.refl _
  | k :: ids, m => by
    rw [List.foldl_cons]
    exact (foldl_mapDelete_sublist ids (mapDelete m k)).trans (List.filter_sublist m)

/-- In a map with unique keys, two entries with the same key coincide. -/
theorem entries_eq_of_keys_nodup {α : Type} {kv1 kv2 : String × α} :
    ∀ m : List (String × α), (m.map (fun kv => kv.1)).Nodup →
      kv1 ∈ m → kv2 ∈ m → kv1.1 = kv2.1 → kv1 = kv2
  | [], _, h1, _, _ => absurd h1 (List.not_mem_nil kv1)
  | kv :: m, h, h1, h2, hk => by
    rw [List.map_cons, List.nodup_cons] at h
    rcases List.mem_cons.mp h1 with rfl | h1b
    · rcases List.mem_cons.mp h2 with rfl | h2b
      · rfl
      · exact absurd (hk ▸ List.mem_map_of_mem (fun (kv : String × α) => kv.1) h2b) h.1
    · rcases List.mem_cons.mp h2 with rfl | h2b
      · refine absurd (List.mem_map_of_mem (fun (kv : String × α) => kv.1) h1b) ?_
        intro hc
        exact h.1 (hk ▸ hc)
      · exact entries_eq_of_keys_nodup m h.2 h1b h2b hk

/-- What a successful `findFileNode` returns: a stored value that is a
`file` node for the requested path. -/
theorem findFileNode_spec {g : CKGraph} {p : String} {n : CKGNode}
    (h : findFileNode g p = some n) :
    n ∈ mapValues g.nodes ∧ n.type = "file" ∧ n.filePath = p := by
  rw [findFileNode] at h
  have hmem := List.mem_of_find?_eq_some h
  have hpred := List.find?_some h
  simp only [Bool.and_eq_true, beq_iff_eq] at hpred
  exact ⟨hmem, hpred.1, hpred.2⟩

/-- Every edge the candidate loop emits targets the file node of one of
the candidates. -/
theorem tryCandidates_mem {g : CKGraph} {cur : String} {e : CKGEdge} :
    ∀ cands : List String, e ∈ tryCandidates g cur cands →
      ∃ c ∈ cands, ∃ fnode : CKGNode, findFileNode g c = some fnode ∧ e.targetId = fnode.id
  | [], h => absurd h (List.not_mem_nil e)
  | c :: rest, h => by
    rw [tryCandidates] at h
    cases hfc : findFileNode g c with
    | some fileNode =>
      rw [hfc] at h
      cases hcur : findFileNode g cur with
      | some curNode =>
        rw [hcur] at h
        have h2 : e ∈ [CKGEdge.mk ("dep_" ++ curNode.id ++ "_" ++ fileNode.id)
            "depends_on" curNode.id fileNode.id] := h
        rcases List.mem_singleton.mp h2 with rfl
        exact ⟨c, List.mem_cons_self c rest, fileNode, hfc, rfl⟩
      | none =>
        rw [hcur] at h
        have h2 : e ∈ ([] : List CKGEdge) := h
        cases h2
    | none =>
      rw [hfc] at h
      have h2 : e ∈ tryCandidates g cur rest := h
      obtain ⟨c2, hc2, fnode, hf, ht⟩ := tryCandidates_mem rest h2
      exact ⟨c2, List.mem_cons_of_mem c hc2, fnode, hf, ht⟩

/-- Members of an append-accumulating fold come from the seed or from
one generator call. -/
theorem mem_foldl_append {α β : Type} (f : β → List α) {x : α} :
    ∀ (l : List β) (init : List α),
      x ∈ l.foldl (fun acc b => acc ++ f b) init → x ∈ init ∨ ∃ b ∈ l, x ∈ f b
  | [], _, h => Or.inl h
  | b :: l, init, h => by
    rw [List.foldl_cons] at h
    rcases mem_foldl_append f l (init ++ f b) h with h2 | ⟨b2, hb2, hx⟩
    · rcases List.mem_append.mp h2 with h3 | h3
      · exact Or.inl h3
      · exact Or.inr ⟨b, List.mem_cons_self b l, h3⟩
    · exact Or.inr ⟨b2, List.mem_cons_of_mem b hb2, hx⟩

/-- If no edge of the graph is an inbound `depends_on` edge of the start
node, the dependents walk reports nothing. -/
theorem traverseDependents_no_edge (g : CKGraph) (db : Nat) (nodeId : String)
    (h : ∀ e ∈ g.edges, ¬(e.targetId = nodeId ∧ e.type = "depends_on")) :
    ∀ (fuel cd : Nat) (st : TravState),
      (traverseDependents g db fuel nodeId cd st).results = st.results
  | 0, _, _ => rfl
  | Nat.succ fuel, cd, st => by
    rw [traverseDependents]
    by_cases hguard : cd > db ∨ st.visited.contains nodeId
    · rw [if_pos hguard]
    · rw [if_neg hguard]
      have hfold := foldlCongrId
        (fun (st2 : TravState) (edge : CKGEdge) =>
          if edge.targetId == nodeId && edge.type == "depends_on" then
            match mapGet g.nodes edge.sourceId with
            | some sourceNode =>
              if sourceNode.type == "file" then
                traverseDependents g db fuel edge.sourceId (cd + 1)
                  { st2 with results := st2.results ++
                      [{ file := sourceNode.filePath, depth := cd,
                         relationship := edge.type }] }
              else st2
            | none => st2
          else st2)
        g.edges { st with visited := nodeId :: st.visited } ?_
      · rw [hfold]
      · intro t edge hedge
        dsimp only
        rw [if_neg]
        intro hc
        rcases Bool.and_eq_true _ _ |>.mp hc with ⟨h1, h2⟩
        exact h edge hedge ⟨by simpa using h1, by simpa using h2⟩

/-- Projection of `removeFileFromGraph` to the node map. -/
theorem removeFileFromGraph_nodes (g : CKGraph) (p : String) :
    (removeFileFromGraph g p).nodes =
      ((g.nodes.filter (fun kv => kv.2.filePath == p)).map (fun kv => kv.1)).foldl
        (fun m k => mapDelete m k) g.nodes := rfl

/-- Projection of `removeFileFromGraph` to the edge array. -/
theorem removeFileFromGraph_edges (g : CKGraph) (p : String) :
    (removeFileFromGraph g p).edges =
      g.edges.filter (fun e =>
        !(((g.nodes.filter (fun kv => kv.2.filePath == p)).map (fun kv => kv.1)).contains
            e.sourceId)
        && !(((g.nodes.filter (fun kv => kv.2.filePath == p)).map (fun kv => kv.1)).contains
            e.targetId)) := rfl

/-- Lemma: `linkImports` leaves the node map untouched. -/
theorem linkImports_nodes (g : CKGraph) (a : FileAnalysis) :
    (linkImports g a).nodes = g.nodes := rfl

/-- Lemma: `linkImports` appends the resolved-import edges. -/
theorem linkImports_edges (g : CKGraph) (a : FileAnalysis) :
    (linkImports g a).edges =
      g.edges ++ a.imports.foldl (fun acc imp => acc ++ linkOneImport g a imp) [] := rfl

/-- C10. Re-indexing a changed file `B` removes every `depends_on` edge
with an endpoint among `B`'s nodes — inbound edges from importing files
included — and `linkImports` recreates only `B`'s own outbound edges, so
immediately after `indexFile` of the changed analysis,
`getDependents(B, d)` is empty for every depth `d` (until the importing
files are themselves re-indexed). Hypotheses: the stored checksum
differs (the file really changed); the store invariants that node-map
keys are unique and each entry is keyed by its node's id; the parser
emits no `depends_on` edges (those are created only by import linking);
`B` does not import itself; and node ids are file-deterministic, i.e.
any existing edge targeting the id of one of the new nodes targets a
node stored for `B`'s own path. -/
theorem ckg_reindex_clears_inbound_dependents
    (s : CKGState) (a : FileAnalysis)
    (hchanged : ¬ mapGet s.fileChecksums a.filePath = some a.checksum)
    (hkeys : (s.graph.nodes.map (fun kv => kv.1)).Nodup)
    (hcoh : ∀ kv ∈ s.graph.nodes, kv.1 = kv.2.id)
    (hnodep : ∀ e ∈ a.edges, e.type ≠ "depends_on")
    (hnoself : ∀ imp ∈ a.imports, ∀ c ∈ possiblePaths (pathDirname a.filePath) imp.source,
      c ≠ a.filePath)
    (hown : ∀ e ∈ s.graph.edges, ∀ n ∈ a.nodes, e.targetId = n.id →
      ∃ kv ∈ s.graph.nodes, kv.1 = e.targetId ∧ kv.2.filePath = a.filePath) :
    ∀ d, getDependents ((indexFile s a).1).graph a.filePath d = [] := by
  intro d
  have hgraph : ((indexFile s a).1).graph =
      linkImports
        { nodes := a.nodes.foldl (fun m n => mapSet m n.id n)
            (removeFileFromGraph s.graph a.filePath).nodes,
          edges := (removeFileFromGraph s.graph a.filePath).edges ++ a.edges } a := by
    rw [indexFile, if_neg hchanged]
  rw [hgraph]
  set G3 : CKGraph :=
    { nodes := a.nodes.foldl (fun m n => mapSet m n.id n)
        (removeFileFromGraph s.graph a.filePath).nodes,
      edges := (removeFileFromGraph s.graph a.filePath).edges ++ a.edges } with hG3
  rw [getDependents]
  cases hf : findFileNode (linkImports G3 a) a.filePath with
  | none => rfl
  | some fn =>
    have hspec := findFileNode_spec hf
    have hfn_values : fn ∈ mapValues G3.nodes := by
      rw [linkImports_nodes] at hspec
      exact hspec.1
    obtain ⟨kvf, hkvf_mem, hkvf_val⟩ := List.mem_map.mp hfn_values
    have hkvf_nodes : kvf ∈ G3.nodes := hkvf_mem
    have hG3nodes : G3.nodes = a.nodes.foldl (fun m n => mapSet m n.id n)
        (removeFileFromGraph s.graph a.filePath).nodes := rfl
    have hfn_inserted : kvf = (fn.id, fn) ∧ fn ∈ a.nodes := by
      rw [hG3nodes] at hkvf_nodes
      rcases mem_foldl_mapSet_nodes a.nodes _ hkvf_nodes with ⟨n, hn, rfl⟩ | hold
      · have hnf : n = fn := hkvf_val
        subst hnf
        exact ⟨rfl, hn⟩
      · rw [removeFileFromGraph_nodes] at hold
        obtain ⟨hin_s, hnotin⟩ := mem_foldl_mapDelete _ _ hold
        exfalso
        apply hnotin
        refine List.mem_map.mpr ⟨kvf, List.mem_filter.mpr ⟨hin_s, ?_⟩, rfl⟩
        have : kvf.2.filePath = a.filePath := by rw [hkvf_val]; exact hspec.2.2
        simpa using this
    have hfn_a : fn ∈ a.nodes := hfn_inserted.2
    have hg1keys : (((removeFileFromGraph s.graph a.filePath).nodes).map
        (fun kv => kv.1)).Nodup := by
      rw [removeFileFromGraph_nodes]
      exact hkeys.sublist (List.Sublist.map _ (foldl_mapDelete_sublist _ _))
    have hG3keys : ((G3.nodes).map (fun kv => kv.1)).Nodup := by
      rw [hG3nodes]
      exact foldl_mapSet_keys_nodup a.nodes _ hg1keys
    have hG3coh : ∀ kv ∈ G3.nodes, kv.1 = kv.2.id := by
      intro kv hkv
      rw [hG3nodes] at hkv
      rcases mem_foldl_mapSet_nodes a.nodes _ hkv with ⟨n, _, rfl⟩ | hold
      · rfl
      · rw [removeFileFromGraph_nodes] at hold
        exact hcoh kv (mem_foldl_mapDelete _ _ hold).1
    have hnoedge : ∀ e ∈ (linkImports G3 a).edges,
        ¬(e.targetId = fn.id ∧ e.type = "depends_on") := by
      intro e he hc
      obtain ⟨htgt, hdep⟩ := hc
      rw [linkImports_edges] at he
      rcases List.mem_append.mp he with he | he
      · have hG3edges : G3.edges =
            (removeFileFromGraph s.graph a.filePath).edges ++ a.edges := rfl
        rw [hG3edges] at he
        rcases List.mem_append.mp he with he | he
        · rw [removeFileFromGraph_edges] at he
          have hfil := List.mem_filter.mp he
          have he_s : e ∈ s.graph.edges := hfil.1
          obtain ⟨kvo, hkvo_mem, hkvo_key, hkvo_fp⟩ := hown e he_s fn hfn_a htgt
          have hkt : e.targetId ∈ ((s.graph.nodes.filter
              (fun kv => kv.2.filePath == a.filePath)).map (fun kv => kv.1)) :=
            List.mem_map.mpr ⟨kvo, List.mem_filter.mpr ⟨hkvo_mem, by simpa using hkvo_fp⟩,
              hkvo_key⟩
          have hfil2 := hfil.2
          simp only [Bool.and_eq_true, Bool.not_eq_true'] at hfil2
          have : ((s.graph.nodes.filter (fun kv => kv.2.filePath == a.filePath)).map
              (fun kv => kv.1)).contains e.targetId = true := by
            simpa using hkt
          rw [this] at hfil2
          exact absurd hfil2.2 (by simp)
        · exact hnodep e he hdep
      · rcases mem_foldl_append _ a.imports [] he with hinit | ⟨imp, himp, hel⟩
        · exact absurd hinit (List.not_mem_nil e)
        · rw [linkOneImport] at hel
          by_cases hrel : jsStartsWith "." imp.source
          · rw [if_pos hrel] at hel
            obtain ⟨c, hc_mem, fnode, hfind, htgt2⟩ := tryCandidates_mem _ hel
            have hcself := hnoself imp himp c hc_mem
            have hfspec := findFileNode_spec hfind
            have hid : fnode.id = fn.id := by rw [← htgt2, htgt]
            obtain ⟨kv2, hkv2_mem, hkv2_val⟩ := List.mem_map.mp hfspec.1
            have hkv2_key : kv2.1 = fnode.id := by
              rw [hG3coh kv2 hkv2_mem, hkv2_val]
            have hkvf_entry : (fn.id, fn) ∈ G3.nodes := hfn_inserted.1 ▸ hkvf_mem
            have hentries : ((fn.id, fn) : String × CKGNode) = kv2 :=
              entries_eq_of_keys_nodup G3.nodes hG3keys hkvf_entry hkv2_mem
                (by rw [hkv2_key, hid])
            have hfnode_eq : fn = fnode := by
              have : ((fn.id, fn) : String × CKGNode).2 = kv2.2 := by rw [hentries]
              rw [hkv2_val] at this
              exact this
            apply hcself
            rw [← hfspec.2.2, ← hfnode_eq, hspec.2.2]
          · rw [if_neg hrel] at hel
            exact absurd hel (List.not_mem_nil e)
    exact traverseDependents_no_edge (linkImports G3 a) d fn.id hnoedge (d + 2) 1 ⟨[], []⟩

/-- Output of the embedded `parseFile` on the changed content of
`proj/B.ts` (`export const b = 2;` — same single file node, different
checksum). -/
def c10NewB : FileAnalysis :=
  parseFileModel md5Stub uuidStub sha256Stub "proj/B.ts" "export const b = 2;\n" []

/-- Concrete instantiation of the re-index theorem, starting from
`scnStateBA`, where `A.ts` depends on `B.ts` through a real inbound
`depends_on` edge: re-indexing the changed `B.ts` leaves `B` with no
dependents at any depth up to 3. -/
theorem ckg_reindex_clears_inbound_dependents_witness :
    getDependents ((indexFile scnStateBA c10NewB).1).graph "proj/B.ts" 3 = [] :=
  ckg_reindex_clears_inbound_dependents scnStateBA c10NewB (by decide) (by decide)
    (by decide) (by decide) (by decide) (by decide) 3
